import Mathlib

/-!
# Verification of the enso automata DFA engine (`lib/rust/automata/src/dfa.rs`)

This file gives a shallow embedding of the determinization engine found in
`src/lib/rust/automata/src/dfa.rs`: the epsilon-closure computation
(`eps_matrix`), the NFA direct-transition table (`nfa_matrix`), the subset
construction (`impl From<&Nfa> for Dfa`), the total transition lookup
(`Dfa::next_state`), the scanner state (`Parser`) and the semantics of the
code emitted by `gen_parser_steps_code` (whose sample output `step_state0` …
`step_state3` is itself part of the source).

Supporting modules of the crate (`state.rs`, `matrix.rs`, `nfa.rs`,
`alphabet.rs`, `symbol.rs`) are not part of the given sources; where they are
needed they are modelled from the spec, and each such definition is marked
`Modelled from the spec:` in its doc comment.

Machine integers: the Rust code stores state identifiers as `usize` with the
reserved value `usize::MAX` as the invalid sentinel, and symbols as unsigned
integers with `u32::MAX` as the end-of-input sentinel.  No arithmetic is ever
performed on these values, so they are embedded as plain `Nat` together with
the explicit sentinel constants.
-/

namespace Enso

/-- Modelled from the spec: `state.rs` is not among the sources.  A state
identifier is an index, with a reserved invalid value distinct from all valid
indices; the Rust representation is `usize` with `INVALID_IX = usize::MAX`. -/
def INVALID_IX : Nat := 2 ^ 64 - 1

/-- Modelled from the spec: a state identifier (`state::StateId`) as its
underlying index.  `INVALID_IX` is the invalid/absent sentinel. -/
abbrev StateId := Nat

/-- The check `StateId::is_invalid`. -/
def StateId.is_invalid (s : StateId) : Bool := s == INVALID_IX

/-- Modelled from the spec: `symbol.rs` is not among the sources.  A symbol is
an ordered value over a fixed domain, embedded as its index. -/
abbrev Symbol := Nat

/-- Modelled from the spec: the distinguished end-of-input sentinel, greater
than all ordinary symbols.  The generated sample code in `dfa.rs` shows the
top of the symbol domain as `4294967295`. -/
def Symbol.eof : Symbol := 4294967295

/-- Modelled from the spec: `matrix.rs` is not among the sources.  A growable
2-D table with a fixed column count, stored row-major; every cell not
explicitly written holds the default value `INVALID_IX` (each new row is
initialized to the default "no transition" value in every column). -/
structure Matrix where
  rows : Nat
  columns : Nat
  data : List Nat
deriving Repr, DecidableEq

namespace Matrix

/-- Modelled from the spec: `Matrix::new(rows, columns)`, all cells default. -/
def new (rows columns : Nat) : Matrix :=
  ⟨rows, columns, List.replicate (rows * columns) INVALID_IX⟩

/-- Modelled from the spec: append one row, initialized to the default value
in every column. -/
def new_row (m : Matrix) : Matrix :=
  ⟨m.rows + 1, m.columns, m.data ++ List.replicate m.columns INVALID_IX⟩

/-- Cell read, `m[(row, column)]`; cells never written hold the default. -/
def get (m : Matrix) (row column : Nat) : Nat :=
  m.data.getD (row * m.columns + column) INVALID_IX

/-- Cell write, `m[(row, column)] = v`. -/
def set (m : Matrix) (row column v : Nat) : Matrix :=
  ⟨m.rows, m.columns, m.data.set (row * m.columns + column) v⟩

/-- Modelled from the spec: `Matrix::safe_index` — indexing by (row, column)
is checked, out-of-range reads fail (the caller falls back to the default). -/
def safe_index (m : Matrix) (row column : Nat) : Option Nat :=
  if row < m.rows ∧ column < m.columns then some (m.get row column) else none

end Matrix

/-- Modelled from the spec: the sealed alphabet segmentation
(`alphabet::SealedSegmentation`) as its ordered sequence of disjoint closed
symbol intervals, one column per interval. -/
structure SealedSegmentation where
  ranges : List (Nat × Nat)
deriving Repr, DecidableEq

/-- Modelled from the spec: `SealedSegmentation::index_of_symbol`, the total
lookup from a symbol to the column index of the interval containing it. -/
def SealedSegmentation.index_of_symbol (a : SealedSegmentation) (s : Symbol) : Nat :=
  (a.ranges.findIdx (fun r => decide (r.1 ≤ s ∧ s ≤ r.2)))

/-- Modelled from the spec: one NFA state (`nfa.rs` is not among the
sources): its set of epsilon-target identifiers, its resolved direct
transition target per alphabet column (`State::targets`, `INVALID_IX` when
absent), and the "export" flag marking completed named lexical rules. -/
structure NfaState where
  epsilon_links : List StateId
  targets : List StateId
  /-- The source field is named `export`, a reserved word in Lean. -/
  exportFlag : Bool
deriving Repr, DecidableEq

instance : Inhabited NfaState := ⟨⟨[], [], false⟩⟩

/-- Modelled from the spec: the NFA — an ordered sequence of states (index =
identifier), a start state identifier, and an alphabet, carried here in its
sealed interval form (one column per interval; the Rust side stores division
points, with `divisions.len()` equal to the interval count). -/
structure Nfa where
  states : List NfaState
  start : StateId
  alphabet_ranges : List (Nat × Nat)
deriving Repr, DecidableEq

/-- The count `nfa.alphabet.divisions.len()`, the transition-table column count. -/
def Nfa.divisions (nfa : Nfa) : Nat := nfa.alphabet_ranges.length

/-- Modelled from the spec: sealing the NFA's alphabet
(`(&nfa.alphabet).into()`), a deterministic freeze of the division structure. -/
def Nfa.seal (nfa : Nfa) : SealedSegmentation := ⟨nfa.alphabet_ranges⟩

/-- Well-formedness of an NFA as assumed by `dfa.rs` (a caller contract per
the spec): every epsilon link is a valid in-range state identifier, every
resolved direct target is in range or the invalid sentinel, and every state
resolves one direct target per alphabet column. -/
def Nfa.wf (nfa : Nfa) : Prop :=
  (∀ st ∈ nfa.states, ∀ t ∈ st.epsilon_links, t < nfa.states.length) ∧
  (∀ st ∈ nfa.states, ∀ t ∈ st.targets, t < nfa.states.length ∨ t = INVALID_IX) ∧
  (∀ st ∈ nfa.states, st.targets.length = nfa.divisions)

instance (nfa : Nfa) : Decidable nfa.wf := by
  unfold Nfa.wf; infer_instance

/-- The DFA value of `dfa.rs` (`pub struct Dfa`): sealed alphabet, transition
matrix `links`, per-DFA-state originating NFA state identifiers `sources` and
the exported subset `exported_sources`. -/
structure Dfa where
  alphabet : SealedSegmentation
  links : Matrix
  sources : List (List StateId)
  exported_sources : List (List StateId)
deriving Repr, DecidableEq

/-- The constant `Dfa::START_STATE`. -/
def Dfa.START_STATE : StateId := 0

/-- Transition lookup `Dfa::next_state`: look up the alphabet column of the symbol, then the
checked matrix read, falling back to the default (`unwrap_or_default`); the
default state identifier is the invalid sentinel (modelled from the spec for
`state.rs`: the in-source test `test1` expects unwritten `Matrix::new` cells
to equal `state::INVALID_IX`, and the spec calls the default the
"no transition" value). -/
def Dfa.next_state (dfa : Dfa) (current_state : StateId) (symbol : Symbol) : StateId :=
  let ix := dfa.alphabet.index_of_symbol symbol
  (dfa.links.safe_index current_state ix).getD INVALID_IX

/-- The mutable state threaded through `fill_eps_matrix`: the per-state
closure cache (`states: &mut Vec<nfa::StateSetId>`, a state-set per NFA state)
and the per-root visited marker array (`visited: &mut Vec<bool>`).  State-sets
are embedded as `Finset Nat`: the Rust `StateSetId` is an order-independent,
structurally-compared collection (per the spec, a canonical sorted
representation), which `Finset` models exactly. -/
structure EpsSt where
  states : List (Finset Nat)
  visited : List Bool
deriving DecidableEq

/-- The loop body of `fill_eps_matrix` (one iteration of
`for &target in &nfa[state].epsilon_links`): recurse when the target is
unvisited, then insert the target and union in the target's currently cached
closure.  `rec` is the recursive call at the remaining fuel. -/
def fill_body (rec : EpsSt → StateId → EpsSt) (acc : EpsSt × Finset Nat)
    (target : StateId) : EpsSt × Finset Nat :=
  let sv' := if acc.1.visited.getD target false then acc.1 else rec acc.1 target
  (sv', insert target acc.2 ∪ sv'.states.getD target ∅)

/-- The recursive worker of `eps_matrix` (`fill_eps_matrix` in `dfa.rs`):
mark `state` visited, start the accumulator from `{state}`, then fold
`fill_body` over the state's epsilon links, and finally write the
accumulated set into the cache at `state`.

The Rust recursion needs no fuel; here the nesting depth is bounded by a fuel
parameter, sufficient whenever it exceeds the number of still-unvisited
states (each nested call enters and marks an unvisited state). -/
def fill_eps_matrix (nfa : Nfa) : Nat → EpsSt → StateId → EpsSt
  | 0, sv, _ => sv
  | fuel+1, sv, state =>
    let links := (nfa.states.getD state default).epsilon_links
    let res : EpsSt × Finset Nat := links.foldl (fill_body (fill_eps_matrix nfa fuel))
      (⟨sv.states, sv.visited.set state true⟩, {state})
    ⟨res.1.states.set state res.2, res.1.visited⟩

/-- The toplevel `eps_matrix`: for every NFA state index (as root, in index order), run
`fill_eps_matrix` with a fresh all-false visited array, accumulating into the
shared closure cache; return the final cache. -/
def eps_matrix (nfa : Nfa) : List (Finset Nat) :=
  let n := nfa.states.length
  (List.range n).foldl
    (fun states id => (fill_eps_matrix nfa n ⟨states, List.replicate n false⟩ id).states)
    (List.replicate n ∅)

/-- The table `nfa_matrix`: the `(state, symbol column) -> state` direct-transition
table, ignoring epsilon links; row `state_ix` is filled from
`state.targets(&nfa.alphabet)`, modelled as the stored `targets` list. -/
def nfa_matrix (nfa : Nfa) : Matrix :=
  (List.range nfa.states.length).foldl
    (fun m state_ix =>
      ((nfa.states.getD state_ix default).targets.enum).foldl
        (fun m p => m.set state_ix p.1 p.2) m)
    (Matrix.new nfa.states.length nfa.divisions)

/-- The mutable state of the determinization loop in `From<&Nfa> for Dfa`:
the growing DFA matrix `dfa_mat`, the worklist of discovered state-sets
`dfa_eps_ixs`, the dictionary `dfa_eps_map` (a `HashMap` used only through
`get`/`insert`, embedded as an association list), and the loop counter `i`. -/
structure DetSt where
  mat : Matrix
  ixs : List (Finset Nat)
  map : List (Finset Nat × Nat)
  i : Nat
deriving DecidableEq

/-- The lookup `dfa_eps_map.get(&eps_set)`: dictionary lookup by structural state-set
equality. -/
def assocFind (map : List (Finset Nat × Nat)) (k : Finset Nat) : Option Nat :=
  match map.find? (fun p => decide (p.1 = k)) with
  | some p => some p.2
  | none => none

/-- The inner union of the determinization loop: iterate the source state-set
`src` (the Rust `for &eps_ix in &dfa_eps_ixs[i]` walks the `BTreeSet` in some
definite order, abstracted here by `listing`), and for each member whose
direct transition on column `voc_ix` is valid, union in that target's
epsilon closure. -/
def eps_set_union (nfa_mat : Matrix) (eps_mat : List (Finset Nat))
    (listing : Finset Nat → List Nat) (src : Finset Nat) (voc_ix : Nat) : Finset Nat :=
  (listing src).foldl (fun acc eps_ix =>
    let tgt := nfa_mat.get eps_ix voc_ix
    if tgt ≠ INVALID_IX then acc ∪ eps_mat.getD tgt ∅ else acc) ∅

/-- Ordered insertion (structural recursion, so that concrete DFAs evaluate
inside the kernel). -/
def insertSorted (x : Nat) : List Nat → List Nat
  | [] => [x]
  | y :: ys => if x ≤ y then x :: y :: ys else y :: insertSorted x ys

/-- Ascending insertion sort. -/
def sortAsc (l : List Nat) : List Nat := l.foldr insertSorted []

/-- The canonical iteration order of the Rust `BTreeSet`: ascending.  The
sort is applied to the underlying multiset through `Quotient.lift` (with an
inline proof that `sortAsc` maps permutations to equal lists), so that
concrete DFAs evaluate inside the kernel. -/
def canonical_listing (s : Finset Nat) : List Nat :=
  Quotient.lift sortAsc
    (fun l1 l2 h => by
      have hperm : ∀ (x : Nat) (l : List Nat), (insertSorted x l).Perm (x :: l) := by
        intro x l
        induction l with
        | nil => simp [insertSorted]
        | cons y ys ih =>
          rw [insertSorted]
          by_cases hxy : x ≤ y
          · rw [if_pos hxy]
          · rw [if_neg hxy]
            exact (List.Perm.cons y ih).trans (List.Perm.swap x y ys)
      have hsperm : ∀ l : List Nat, (sortAsc l).Perm l := by
        intro l
        induction l with
        | nil => simp [sortAsc]
        | cons y ys ih => exact (hperm y (sortAsc ys)).trans (List.Perm.cons y ih)
      have hins_sorted : ∀ (x : Nat) (l : List Nat), l.Sorted (· ≤ ·) →
          (insertSorted x l).Sorted (· ≤ ·) := by
        intro x l
        induction l with
        | nil =>
          intro _
          simp [insertSorted]
        | cons y ys ih =>
          intro hs
          rw [List.sorted_cons] at hs
          rw [insertSorted]
          by_cases hxy : x ≤ y
          · rw [if_pos hxy, List.sorted_cons]
            refine ⟨?_, by rw [List.sorted_cons]; exact hs⟩
            intro b hb
            rcases List.mem_cons.mp hb with h | h
            · omega
            · have := hs.1 b h
              omega
          · rw [if_neg hxy, List.sorted_cons]
            refine ⟨?_, ih hs.2⟩
            intro b hb
            have hb' := (hperm x ys).mem_iff.mp hb
            rcases List.mem_cons.mp hb' with h | h
            · omega
            · exact hs.1 b h
      have hsorted : ∀ l : List Nat, (sortAsc l).Sorted (· ≤ ·) := by
        intro l
        induction l with
        | nil => simp [sortAsc]
        | cons y ys ih => exact hins_sorted y (sortAsc ys) ih
      have h' : l1.Perm l2 := h
      exact List.eq_of_perm_of_sorted
        ((hsperm l1).trans (h'.trans (hsperm l2).symm)) (hsorted l1) (hsorted l2))
    s.val

/-- The per-column body of the determinization loop: compute the union
state-set for the current row's source set on column `voc_ix`; if nonempty,
write the dictionary identifier into the matrix cell, allocating the next
identifier (and appending to worklist and dictionary) when the set was not
registered before. -/
def det_body (nfa_mat : Matrix) (eps_mat : List (Finset Nat))
    (listing : Finset Nat → List Nat) (st : DetSt) (voc_ix : Nat) : DetSt :=
  let eps_set := eps_set_union nfa_mat eps_mat listing (st.ixs.getD st.i ∅) voc_ix
  if eps_set = ∅ then st
  else
    match assocFind st.map eps_set with
    | some id => { st with mat := st.mat.set st.i voc_ix id }
    | none =>
      let id := st.ixs.length
      { st with
          mat := st.mat.set st.i voc_ix id
          ixs := st.ixs ++ [eps_set]
          map := st.map ++ [(eps_set, id)] }

/-- One iteration of the determinization `while` loop body: append a fresh
default row, then run `det_body` for every alphabet column in order, then
advance the loop counter. -/
def detStep (nfa : Nfa) (nfa_mat : Matrix) (eps_mat : List (Finset Nat))
    (listing : Finset Nat → List Nat) (st : DetSt) : DetSt :=
  let st' := { st with mat := st.mat.new_row }
  let st'' := (List.range nfa.divisions).foldl (det_body nfa_mat eps_mat listing) st'
  { st'' with i := st''.i + 1 }

/-- The union state-set of the determinization inner loop in its canonical
order-independent form: over all NFA states of the source set, the epsilon
closures of their valid direct transitions on the given column. -/
def transition_set (nfa_mat : Matrix) (eps_mat : List (Finset Nat))
    (src : Finset Nat) (voc_ix : Nat) : Finset Nat :=
  src.biUnion (fun eps_ix =>
    if nfa_mat.get eps_ix voc_ix ≠ INVALID_IX then
      eps_mat.getD (nfa_mat.get eps_ix voc_ix) ∅
    else ∅)

/-- The specification of one processed matrix cell: the invalid sentinel for
an empty union state-set, otherwise the identifier registered (in the
worklist/dictionary) for exactly that union state-set. -/
def CellSpec (nfa : Nfa) (src : Finset Nat) (stF : DetSt) (row c : Nat) : Prop :=
  (transition_set (nfa_matrix nfa) (eps_matrix nfa) src c = ∅ →
    stF.mat.get row c = INVALID_IX) ∧
  (transition_set (nfa_matrix nfa) (eps_matrix nfa) src c ≠ ∅ →
    ∃ j, j < stF.ixs.length ∧
      stF.ixs.getD j ∅ = transition_set (nfa_matrix nfa) (eps_matrix nfa) src c ∧
      stF.mat.get row c = j)

/-- The loop invariant of the determinization worklist loop: the matrix has
one fully processed row per handled worklist entry, the dictionary mirrors
the worklist, worklist entries are pairwise distinct subsets of the state
range, and every processed cell meets `CellSpec`. -/
def DetInv (nfa : Nfa) (st : DetSt) : Prop :=
  st.mat.columns = nfa.divisions ∧
  st.mat.rows = st.i ∧
  st.mat.data.length = st.i * nfa.divisions ∧
  st.i ≤ st.ixs.length ∧
  st.map = st.ixs.enum.map (fun p => (p.2, p.1)) ∧
  st.ixs.Nodup ∧
  (∀ S ∈ st.ixs, S ⊆ Finset.range nfa.states.length) ∧
  (∀ r c, r < st.i → c < nfa.divisions → CellSpec nfa (st.ixs.getD r ∅) st r c)

/-- The invariant holding while one determinization row is being filled in:
relative to the loop state `st0` at the row's start (with the fresh row
already appended conceptually), the loop counter is unchanged, the matrix
shape is that of `st0` plus one row, the worklist has only been extended, the
dictionary mirrors it, its entries are distinct in-range sets, and earlier
rows are untouched. -/
def DetMid (nfa : Nfa) (st0 st : DetSt) : Prop :=
  st.i = st0.i ∧
  st.mat.columns = nfa.divisions ∧
  st.mat.rows = st0.i + 1 ∧
  st.mat.data.length = (st0.i + 1) * nfa.divisions ∧
  (∃ tl, st.ixs = st0.ixs ++ tl) ∧
  st.map = st.ixs.enum.map (fun p => (p.2, p.1)) ∧
  st.ixs.Nodup ∧
  (∀ S ∈ st.ixs, S ⊆ Finset.range nfa.states.length) ∧
  (∀ r c', r < st0.i → c' < nfa.divisions → st.mat.get r c' = st0.mat.get r c')

/-- The determinization `while i < dfa_eps_ixs.len()` loop, with a fuel bound
(the Rust loop terminates because only finitely many distinct state-sets
exist; the termination theorem shows `2 ^ n` fuel always suffices). -/
def detLoop (nfa : Nfa) (nfa_mat : Matrix) (eps_mat : List (Finset Nat))
    (listing : Finset Nat → List Nat) : Nat → DetSt → DetSt
  | 0, st => st
  | fuel+1, st =>
    if st.i < st.ixs.length then
      detLoop nfa nfa_mat eps_mat listing fuel (detStep nfa nfa_mat eps_mat listing st)
    else st

/-- The seed of the determinization: worklist and dictionary start from
`eps_mat[0]` mapped to `Dfa::START_STATE`. -/
def detInit (nfa : Nfa) (eps_mat : List (Finset Nat)) : DetSt :=
  { mat := Matrix.new 0 nfa.divisions
    ixs := [eps_mat.getD 0 ∅]
    map := [(eps_mat.getD 0 ∅, Dfa.START_STATE)]
    i := 0 }

/-- Determinization, `From<&Nfa> for Dfa`, parametrized by the set iteration order used for
the inner union (the Rust `BTreeSet` walk): compute the auxiliary tables, run
the worklist loop, then read off `exported_sources` (iterate each state-set,
keeping the states whose `export` flag is set) and `sources` (iterate each
state-set). -/
def dfaFromWith (listing : Finset Nat → List Nat) (nfa : Nfa) : Dfa :=
  let nfa_mat := nfa_matrix nfa
  let eps_mat := eps_matrix nfa
  let st := detLoop nfa nfa_mat eps_mat listing (2 ^ nfa.states.length)
    (detInit nfa eps_mat)
  let exported_sources := st.ixs.map (fun epss =>
    (canonical_listing epss).filter (fun s => (nfa.states.getD s default).exportFlag))
  let sources := st.ixs.map (fun epss => canonical_listing epss)
  { alphabet := nfa.seal, links := st.mat, sources := sources
    exported_sources := exported_sources }

/-- Determinization `Dfa::from(&nfa)`, with the Rust `BTreeSet` ascending iteration order. -/
def dfaFrom (nfa : Nfa) : Dfa := dfaFromWith canonical_listing nfa

/-- The final worklist/dictionary state of the determinization of `nfa`
(used to speak about the registered state-sets themselves). -/
def detFinal (nfa : Nfa) : DetSt :=
  detLoop nfa (nfa_matrix nfa) (eps_matrix nfa) canonical_listing
    (2 ^ nfa.states.length) (detInit nfa (eps_matrix nfa))

/-- The scanner state (`pub struct Parser<'s>`): the remaining input
(`input_iter`, the character iterator as the list of symbols not yet
loaded), the currently loaded symbol and the current DFA state. -/
structure Parser where
  input_iter : List Symbol
  current_input : Symbol
  dfa_state : StateId
deriving Repr, DecidableEq

/-- Advancing, `Parser::next_input_char`: load the next symbol from the iterator, or the
end-of-input sentinel when the iterator is exhausted. -/
def Parser.next_input_char (p : Parser) : Parser :=
  { p with
      current_input := p.input_iter.headD Symbol.eof
      input_iter := p.input_iter.tail }

/-- Construction `Parser::new` composed with `init`: `current_input` and `dfa_state` both
start from `default()` (the default state identifier is the invalid sentinel,
modelled from the spec for `state.rs`; the in-source `test1` fixture forces
unwritten matrix cells — which hold the default — to equal `INVALID_IX`),
then a single `next_input_char` loads the first symbol or eof. -/
def Parser.new (input : List Symbol) : Parser :=
  Parser.next_input_char
    { input_iter := input, current_input := 0, dfa_state := INVALID_IX }

/-- The observable semantics of the text emitted by `gen_parser_steps_code`
for one DFA state `row`: a sequence of plain `if`s (not `else if`s), one per
alphabet column in order, each testing whether the *current* input symbol
lies in that column's interval; on a hit, an invalid matrix cell does
nothing, and a valid cell stores the target state and consumes one input
symbol.  Subsequent `if`s then test the newly loaded symbol. -/
def gen_step (dfa : Dfa) (row : Nat) (p : Parser) : Parser :=
  (List.range dfa.links.columns).foldl (fun p column =>
    let range := dfa.alphabet.ranges.getD column (0, 0)
    if range.1 ≤ p.current_input ∧ p.current_input ≤ range.2 then
      let target_state := dfa.links.get row column
      if target_state = INVALID_IX then p
      else Parser.next_input_char { p with dfa_state := target_state }
    else p) p

/-- One step of the dispatch-table driver: `STEPS_LOOKUP_TABLE` maps each
state identifier to its routine, so a driver step runs the routine of the
current DFA state. -/
def gen_dispatch_step (dfa : Dfa) (p : Parser) : Parser :=
  gen_step dfa p.dfa_state p

/-- Driving the generated routines `n` steps through the dispatch table. -/
def gen_drive (dfa : Dfa) : Nat → Parser → Parser
  | 0, p => p
  | n+1, p => gen_drive dfa n (gen_dispatch_step dfa p)

/-- The step the spec's contract prescribes for the generated routine
(written from the spec's words, for comparison): look up
`links[s][index_of(current symbol)]` via `next_state`; when the target is
valid, make it the current state and consume one input symbol, otherwise
change nothing. -/
def table_step (dfa : Dfa) (p : Parser) : Parser :=
  let tgt := dfa.next_state p.dfa_state p.current_input
  if tgt = INVALID_IX then p
  else Parser.next_input_char { p with dfa_state := tgt }

/-- Driving `next_state` repeatedly for `n` steps (written from the spec's
words, for comparison). -/
def table_drive (dfa : Dfa) : Nat → Parser → Parser
  | 0, p => p
  | n+1, p => table_drive dfa n (table_step dfa p)

/-- The sample generated routine `step_state0` hard-coded in `dfa.rs`,
embedded statement for statement (each branch written exactly as emitted,
including the no-op "invalid" arms). -/
def step_state0 (parser : Parser) : Parser :=
  let parser := if 0 ≤ parser.current_input ∧ parser.current_input ≤ 96 then
    parser else parser
  let parser := if 97 ≤ parser.current_input ∧ parser.current_input ≤ 97 then
    Parser.next_input_char { parser with dfa_state := 1 } else parser
  let parser := if 98 ≤ parser.current_input ∧ parser.current_input ≤ 98 then
    parser else parser
  let parser := if 99 ≤ parser.current_input ∧ parser.current_input ≤ 99 then
    Parser.next_input_char { parser with dfa_state := 2 } else parser
  let parser := if 100 ≤ parser.current_input ∧ parser.current_input ≤ 4294967295 then
    parser else parser
  parser

/-- The DFA the sample routines `step_state0` … `step_state3` in `dfa.rs`
were generated from (the `test1` fixture: alphabet intervals for `a`, `b`,
`c` and the two surrounding gaps; transition rows read off the emitted
routines). -/
def dfaT1 : Dfa :=
  { alphabet := ⟨[(0, 96), (97, 97), (98, 98), (99, 99), (100, 4294967295)]⟩
    links := ⟨4, 5,
      [INVALID_IX, 1, INVALID_IX, 2, INVALID_IX,
       INVALID_IX, 1, 3, 2, INVALID_IX,
       INVALID_IX, 1, INVALID_IX, 3, INVALID_IX,
       INVALID_IX, 1, INVALID_IX, INVALID_IX, INVALID_IX]⟩
    sources := [[], [], [], []]
    exported_sources := [[], [], [], []] }

/-- A two-column DFA exhibiting the divergence of the generated stepper from
table-driven simulation over a whole input: row 0 sends column 0 to state 1
and column 1 to state 2; rows 1 and 2 have no outgoing transitions. -/
def dfaX : Dfa :=
  { alphabet := ⟨[(0, 0), (1, 4294967295)]⟩
    links := ⟨3, 2,
      [1, 2,
       INVALID_IX, INVALID_IX,
       INVALID_IX, INVALID_IX]⟩
    sources := [[], [], []]
    exported_sources := [[], [], []] }

/-- One epsilon edge of the NFA: `b` is among the epsilon links of `a`. -/
def epsStep (nfa : Nfa) (a b : Nat) : Prop :=
  b ∈ (nfa.states.getD a default).epsilon_links

/-- Epsilon reachability: zero or more epsilon edges (includes the state
itself by reflexivity). -/
def EpsReach (nfa : Nfa) : Nat → Nat → Prop :=
  Relation.ReflTransGen (epsStep nfa)

/-- Every cached element is justified by the cache index itself, one of its
direct epsilon links, or a link's cache entry: the shape every write of
`fill_eps_matrix` has, which makes rewrites monotone. -/
def SelfSupported (nfa : Nfa) (states : List (Finset Nat)) : Prop :=
  ∀ u x, x ∈ states.getD u ∅ →
    x = u ∨ ∃ t ∈ (nfa.states.getD u default).epsilon_links, x = t ∨ x ∈ states.getD t ∅

/-- Every cached element is epsilon-reachable from its cache index. -/
def Sound (nfa : Nfa) (states : List (Finset Nat)) : Prop :=
  ∀ u x, x ∈ states.getD u ∅ → EpsReach nfa u x

/-- Pointwise cache growth. -/
def CacheLE (s1 s2 : List (Finset Nat)) : Prop :=
  ∀ u, s1.getD u ∅ ⊆ s2.getD u ∅

/-- The set of marked entries of a visited array. -/
def visitedSet (v : List Bool) : Finset Nat :=
  (Finset.range v.length).filter (fun i => v.getD i false = true)

/-- The basic contract of one `fill_eps_matrix` call on an unvisited state
over self-supported caches: caches only grow and stay self-supported,
entries of already-visited states are untouched, visited marks are stable,
lengths are preserved, and soundness is preserved. -/
def FillSpec (nfa : Nfa) (f : EpsSt → StateId → EpsSt) : Prop :=
  ∀ sv t, sv.visited.getD t false = false → SelfSupported nfa sv.states →
    sv.visited.length = sv.states.length →
    CacheLE sv.states (f sv t).states ∧
    SelfSupported nfa (f sv t).states ∧
    (∀ u, sv.visited.getD u false = true →
      (f sv t).states.getD u ∅ = sv.states.getD u ∅ ∧
      (f sv t).visited.getD u false = true) ∧
    (f sv t).states.length = sv.states.length ∧
    (f sv t).visited.length = sv.visited.length ∧
    (Sound nfa sv.states → Sound nfa (f sv t).states)

/-- The completeness contract of `fill_eps_matrix` at a given fuel: called on
an unvisited in-range state with enough fuel for the still-unvisited states,
it marks the state, every state it marks lands in the state's final cache
entry, and the marks are closed under epsilon links of newly marked states. -/
def FillComplete (nfa : Nfa) (fuel : Nat) : Prop :=
  ∀ sv state, SelfSupported nfa sv.states →
    sv.visited.length = nfa.states.length →
    sv.states.length = nfa.states.length →
    state < nfa.states.length →
    sv.visited.getD state false = false →
    nfa.states.length ≤ fuel + (visitedSet sv.visited).card →
    ((fill_eps_matrix nfa fuel sv state).visited.getD state false = true) ∧
    (∀ w, (fill_eps_matrix nfa fuel sv state).visited.getD w false = true →
      sv.visited.getD w false = true ∨
        w ∈ (fill_eps_matrix nfa fuel sv state).states.getD state ∅) ∧
    (∀ w, (fill_eps_matrix nfa fuel sv state).visited.getD w false = true →
      sv.visited.getD w false = true ∨
        ∀ t ∈ (nfa.states.getD w default).epsilon_links,
          (fill_eps_matrix nfa fuel sv state).visited.getD t false = true)

/-- The outer loop of `eps_matrix` stopped after the first `k` roots (used to
reason about the loop by induction; `eps_matrix nfa` is `eps_upto nfa n`). -/
def eps_upto (nfa : Nfa) (k : Nat) : List (Finset Nat) :=
  (List.range k).foldl
    (fun states id =>
      (fill_eps_matrix nfa nfa.states.length
        ⟨states, List.replicate nfa.states.length false⟩ id).states)
    (List.replicate nfa.states.length ∅)

/-- A concrete two-state NFA whose start state has index 1, not 0; no
epsilon links, one alphabet interval, no targets. -/
def nfaC1 : Nfa :=
  { states := [⟨[], [INVALID_IX], false⟩, ⟨[], [INVALID_IX], false⟩]
    start := 1
    alphabet_ranges := [(0, 4294967295)] }

/-- A concrete one-state NFA with the start state at index 0. -/
def nfaC0 : Nfa :=
  { states := [⟨[], [INVALID_IX], false⟩]
    start := 0
    alphabet_ranges := [(0, 4294967295)] }

/-- A concrete two-state NFA with one direct transition (state 0 to state 1
on the single alphabet column); state 1 is exported. -/
def nfaC2 : Nfa :=
  { states := [⟨[], [1], false⟩, ⟨[], [INVALID_IX], true⟩]
    start := 0
    alphabet_ranges := [(0, 4294967295)] }

/-- A concrete two-state NFA with mutually cyclic epsilon links (0 ↔ 1). -/
def nfaC4 : Nfa :=
  { states := [⟨[1], [INVALID_IX], false⟩, ⟨[0], [INVALID_IX], false⟩]
    start := 0
    alphabet_ranges := [(0, 4294967295)] }

/-- A set iteration order different from the canonical ascending one:
descending.  Any such order must produce the same DFA. -/
def reverse_listing : Finset Nat → List Nat :=
  fun S => (canonical_listing S).reverse

section EpsLemmas

/-- Folding `fill_body` of a well-behaved recursive call over any link list
keeps caches growing, self-supported and sound, preserves entries and marks
of already-visited states, and preserves lengths. -/
theorem fold_main (nfa : Nfa) (rec : EpsSt → StateId → EpsSt)
    (hrec : FillSpec nfa rec) :
    ∀ (l : List StateId) (acc : EpsSt × Finset Nat),
      SelfSupported nfa acc.1.states →
      acc.1.visited.length = acc.1.states.length →
      CacheLE acc.1.states (l.foldl (fill_body rec) acc).1.states ∧
      SelfSupported nfa (l.foldl (fill_body rec) acc).1.states ∧
      (∀ u, acc.1.visited.getD u false = true →
        (l.foldl (fill_body rec) acc).1.states.getD u ∅ = acc.1.states.getD u ∅ ∧
        (l.foldl (fill_body rec) acc).1.visited.getD u false = true) ∧
      (l.foldl (fill_body rec) acc).1.states.length = acc.1.states.length ∧
      (l.foldl (fill_body rec) acc).1.visited.length = acc.1.visited.length ∧
      (Sound nfa acc.1.states → Sound nfa (l.foldl (fill_body rec) acc).1.states) := by
  intro l
  induction l with
  | nil =>
    intro acc hss _
    exact ⟨fun _ => subset_rfl, hss, fun _ h => ⟨rfl, h⟩, rfl, rfl, id⟩
  | cons target l ih =>
    intro acc hss hlen
    rw [List.foldl_cons]
    have hstep : CacheLE acc.1.states (fill_body rec acc target).1.states ∧
        SelfSupported nfa (fill_body rec acc target).1.states ∧
        (∀ u, acc.1.visited.getD u false = true →
          (fill_body rec acc target).1.states.getD u ∅ = acc.1.states.getD u ∅ ∧
          (fill_body rec acc target).1.visited.getD u false = true) ∧
        (fill_body rec acc target).1.states.length = acc.1.states.length ∧
        (fill_body rec acc target).1.visited.length = acc.1.visited.length ∧
        (Sound nfa acc.1.states → Sound nfa (fill_body rec acc target).1.states) := by
      by_cases hv : acc.1.visited.getD target false = true
      · simp only [fill_body, hv, if_true]
        refine ⟨fun _ => subset_rfl, hss, fun _ h => ⟨by trivial, h⟩, ?_, ?_, id⟩ <;> trivial
      · have hv' : acc.1.visited.getD target false = false := by
          simpa using hv
        simp only [fill_body, hv', Bool.false_eq_true, if_false]
        obtain ⟨a1, a2, a3, a4, a5, a6⟩ := hrec acc.1 target hv' hss hlen
        exact ⟨a1, a2, a3, a4, a5, a6⟩
    obtain ⟨s1, s2, s3, s4, s5, s6⟩ := hstep
    obtain ⟨i1, i2, i3, i4, i5, i6⟩ := ih (fill_body rec acc target) s2 (by omega)
    refine ⟨fun u => (s1 u).trans (i1 u), i2, ?_, i4.trans s4, i5.trans s5,
      fun hs => i6 (s6 hs)⟩
    intro u hu
    obtain ⟨e1, e2⟩ := s3 u hu
    obtain ⟨e3, e4⟩ := i3 u e2
    exact ⟨e3.trans e1, e4⟩

/-- The accumulator of the `fill_body` fold only grows, collects for every
link both the link and its cache entry at processing time, and contains
nothing beyond the seed, the links, and (bounds of) their cache entries. -/
theorem fold_acc (nfa : Nfa) (rec : EpsSt → StateId → EpsSt)
    (hrec : FillSpec nfa rec) :
    ∀ (l : List StateId) (acc : EpsSt × Finset Nat),
      SelfSupported nfa acc.1.states →
      acc.1.visited.length = acc.1.states.length →
      acc.2 ⊆ (l.foldl (fill_body rec) acc).2 ∧
      (∀ t ∈ l, insert t (acc.1.states.getD t ∅) ⊆ (l.foldl (fill_body rec) acc).2) ∧
      (∀ x ∈ (l.foldl (fill_body rec) acc).2,
        x ∈ acc.2 ∨ ∃ t ∈ l, x = t ∨ x ∈ (l.foldl (fill_body rec) acc).1.states.getD t ∅) := by
  intro l
  induction l with
  | nil =>
    intro acc _ _
    exact ⟨subset_rfl, by simp, fun x hx => Or.inl hx⟩
  | cons target l ih =>
    intro acc hss hlen
    rw [List.foldl_cons]
    have hstep : CacheLE acc.1.states (fill_body rec acc target).1.states ∧
        SelfSupported nfa (fill_body rec acc target).1.states ∧
        (fill_body rec acc target).1.states.length = acc.1.states.length ∧
        (fill_body rec acc target).1.visited.length = acc.1.visited.length ∧
        acc.2 ⊆ (fill_body rec acc target).2 ∧
        insert target (acc.1.states.getD target ∅) ⊆ (fill_body rec acc target).2 ∧
        (∀ x ∈ (fill_body rec acc target).2,
          x = target ∨ x ∈ acc.2 ∨
            x ∈ (fill_body rec acc target).1.states.getD target ∅) := by
      by_cases hv : acc.1.visited.getD target false = true
      · simp only [fill_body, hv, if_true]
        refine ⟨fun _ => subset_rfl, hss, by trivial, by trivial, ?_, ?_, ?_⟩
        · intro x hx
          exact Finset.mem_union_left _ (Finset.mem_insert_of_mem hx)
        · intro x hx
          rcases Finset.mem_insert.mp hx with h | h
          · exact Finset.mem_union_left _ (h ▸ Finset.mem_insert_self _ _)
          · exact Finset.mem_union_right _ h
        · intro x hx
          rcases Finset.mem_union.mp hx with h | h
          · rcases Finset.mem_insert.mp h with h' | h'
            · exact Or.inl h'
            · exact Or.inr (Or.inl h')
          · exact Or.inr (Or.inr h)
      · have hv' : acc.1.visited.getD target false = false := by simpa using hv
        simp only [fill_body, hv', Bool.false_eq_true, if_false]
        obtain ⟨a1, a2, _, a4, a5, _⟩ := hrec acc.1 target hv' hss hlen
        refine ⟨a1, a2, a4, a5, ?_, ?_, ?_⟩
        · intro x hx
          exact Finset.mem_union_left _ (Finset.mem_insert_of_mem hx)
        · intro x hx
          rcases Finset.mem_insert.mp hx with h | h
          · exact Finset.mem_union_left _ (h ▸ Finset.mem_insert_self _ _)
          · exact Finset.mem_union_right _ (a1 target h)
        · intro x hx
          rcases Finset.mem_union.mp hx with h | h
          · rcases Finset.mem_insert.mp h with h' | h'
            · exact Or.inl h'
            · exact Or.inr (Or.inl h')
          · exact Or.inr (Or.inr h)
    obtain ⟨s1, s2, s3, s4, s5, s6, s7⟩ := hstep
    obtain ⟨i1, i2, i3⟩ := ih (fill_body rec acc target) s2 (by omega)
    have hcle := (fold_main nfa rec hrec l (fill_body rec acc target) s2 (by omega)).1
    refine ⟨s5.trans i1, ?_, ?_⟩
    · intro t ht
      rcases List.mem_cons.mp ht with h | h
      · exact h ▸ s6.trans i1
      · intro x hx
        rcases Finset.mem_insert.mp hx with h' | h'
        · exact i2 t h (h' ▸ Finset.mem_insert_self _ _)
        · exact i2 t h (Finset.mem_insert_of_mem (s1 t h'))
    · intro x hx
      rcases i3 x hx with h | ⟨t, ht, h⟩
      · rcases s7 x h with h' | h' | h'
        · exact Or.inr ⟨target, List.mem_cons_self _ _, Or.inl h'⟩
        · exact Or.inl h'
        · exact Or.inr ⟨target, List.mem_cons_self _ _, Or.inr (hcle target h')⟩
      · exact Or.inr ⟨t, List.mem_cons_of_mem _ ht, h⟩

/-- Everything the `fill_body` fold adds to caches or accumulates is
epsilon-reachable from a state whose links cover the folded list. -/
theorem fold_sound (nfa : Nfa) (rec : EpsSt → StateId → EpsSt)
    (hrec : FillSpec nfa rec) (state : Nat) :
    ∀ (l : List StateId) (acc : EpsSt × Finset Nat),
      SelfSupported nfa acc.1.states →
      acc.1.visited.length = acc.1.states.length →
      Sound nfa acc.1.states →
      (∀ x ∈ acc.2, EpsReach nfa state x) →
      (∀ t ∈ l, epsStep nfa state t) →
      Sound nfa (l.foldl (fill_body rec) acc).1.states ∧
      (∀ x ∈ (l.foldl (fill_body rec) acc).2, EpsReach nfa state x) := by
  intro l
  induction l with
  | nil =>
    intro acc _ _ hsound hacc _
    exact ⟨hsound, hacc⟩
  | cons target l ih =>
    intro acc hss hlen hsound hacc hl
    rw [List.foldl_cons]
    have htarget : epsStep nfa state target := hl target (List.mem_cons_self _ _)
    have hstep : SelfSupported nfa (fill_body rec acc target).1.states ∧
        (fill_body rec acc target).1.visited.length =
          (fill_body rec acc target).1.states.length ∧
        Sound nfa (fill_body rec acc target).1.states ∧
        (∀ x ∈ (fill_body rec acc target).2, EpsReach nfa state x) := by
      by_cases hv : acc.1.visited.getD target false = true
      · simp only [fill_body, hv, if_true]
        refine ⟨hss, by omega, hsound, ?_⟩
        intro x hx
        rcases Finset.mem_union.mp hx with h | h
        · rcases Finset.mem_insert.mp h with h' | h'
          · exact h' ▸ Relation.ReflTransGen.single htarget
          · exact hacc x h'
        · exact (Relation.ReflTransGen.single htarget).trans (hsound target x h)
      · have hv' : acc.1.visited.getD target false = false := by simpa using hv
        simp only [fill_body, hv', Bool.false_eq_true, if_false]
        obtain ⟨_, a2, _, a4, a5, a6⟩ := hrec acc.1 target hv' hss hlen
        have hsound' := a6 hsound
        refine ⟨a2, by omega, hsound', ?_⟩
        intro x hx
        rcases Finset.mem_union.mp hx with h | h
        · rcases Finset.mem_insert.mp h with h' | h'
          · exact h' ▸ Relation.ReflTransGen.single htarget
          · exact hacc x h'
        · exact (Relation.ReflTransGen.single htarget).trans (hsound' target x h)
    obtain ⟨s1, s2, s3, s4⟩ := hstep
    exact ih (fill_body rec acc target) s1 s2 s3 s4
      (fun t ht => hl t (List.mem_cons_of_mem _ ht))

/-- Every `fill_eps_matrix` call satisfies the basic cache contract
`FillSpec`, at any fuel. -/
theorem fill_spec (nfa : Nfa) : ∀ fuel, FillSpec nfa (fill_eps_matrix nfa fuel) := by
  intro fuel
  induction fuel with
  | zero =>
    intro sv t _ hss _
    simp only [fill_eps_matrix]
    refine ⟨fun _ => subset_rfl, hss, fun _ h => ⟨by trivial, h⟩, ?_, ?_, id⟩ <;> trivial
  | succ fuel ih =>
    intro sv state hvis hss hlen
    set acc0 : EpsSt × Finset Nat := (⟨sv.states, sv.visited.set state true⟩, {state})
      with hacc0
    set links := (nfa.states.getD state default).epsilon_links with hlinks
    set res := links.foldl (fill_body (fill_eps_matrix nfa fuel)) acc0 with hres
    have hunf : fill_eps_matrix nfa (fuel+1) sv state =
        ⟨res.1.states.set state res.2, res.1.visited⟩ := rfl
    rw [hunf]
    have hss0 : SelfSupported nfa acc0.1.states := hss
    have hlen0 : acc0.1.visited.length = acc0.1.states.length := by
      simp [hacc0, hlen]
    obtain ⟨m1, m2, m3, m4, m5, m6⟩ := fold_main nfa _ ih links acc0 hss0 hlen0
    obtain ⟨a1, a2, a3⟩ := fold_acc nfa _ ih links acc0 hss0 hlen0
    rw [← hres] at m1 m2 m3 m4 m5 m6 a1 a2 a3
    have hstate_in : state ∈ res.2 := a1 (Finset.mem_singleton_self state)
    have hsub : sv.states.getD state ∅ ⊆ res.2 := by
      intro x hx
      rcases hss state x hx with h | ⟨t, ht, h⟩
      · exact h ▸ hstate_in
      · rcases h with h | h
        · exact a2 t ht (h ▸ Finset.mem_insert_self _ _)
        · exact a2 t ht (Finset.mem_insert_of_mem h)
    have hs4 : res.1.states.length = sv.states.length := m4
    have hs5 : res.1.visited.length = sv.visited.length := by
      simpa [hacc0] using m5
    by_cases hrange : state < sv.states.length
    · have hrange' : state < res.1.states.length := by rw [hs4]; exact hrange
      have hgetfin : (res.1.states.set state res.2).getD state ∅ = res.2 := by
        simp [List.getD_eq_getElem?_getD, List.getElem?_set_self', hrange']
      have hgetne : ∀ u, u ≠ state →
          (res.1.states.set state res.2).getD u ∅ = res.1.states.getD u ∅ := by
        intro u hu
        simp [List.getD_eq_getElem?_getD, List.getElem?_set_ne (Ne.symm hu)]
      have hmarked : acc0.1.visited.getD state false = true := by
        have : state < sv.visited.length := by rw [hlen]; exact hrange
        simp [hacc0, List.getD_eq_getElem?_getD, List.getElem?_set_self', this]
      have hstate_keep : res.1.states.getD state ∅ = sv.states.getD state ∅ :=
        (m3 state hmarked).1
      refine ⟨?_, ?_, ?_, ?_, ?_, ?_⟩
      · -- CacheLE
        intro u
        by_cases hu : u = state
        · subst hu
          rw [hgetfin]
          exact hsub
        · rw [hgetne u hu]
          exact m1 u
      · -- SelfSupported
        intro u x hx
        by_cases hu : u = state
        · rw [hu] at hx ⊢
          rw [hgetfin] at hx
          rcases a3 x hx with h | ⟨t, ht, h⟩
          · exact Or.inl (Finset.mem_singleton.mp h)
          · refine Or.inr ⟨t, ht, ?_⟩
            rcases h with h | h
            · exact Or.inl h
            · refine Or.inr ?_
              by_cases hts : t = state
              · subst hts
                rw [hgetfin]
                rw [hstate_keep] at h
                exact hsub h
              · rw [hgetne t hts]
                exact h
        · rw [hgetne u hu] at hx
          rcases m2 u x hx with h | ⟨t, ht, h⟩
          · exact Or.inl h
          · refine Or.inr ⟨t, ht, ?_⟩
            rcases h with h | h
            · exact Or.inl h
            · refine Or.inr ?_
              by_cases hts : t = state
              · subst hts
                rw [hgetfin]
                rw [hstate_keep] at h
                exact hsub h
              · rw [hgetne t hts]
                exact h
      · -- untouched entries of already-visited states
        intro u hu
        have hune : u ≠ state := by
          intro h
          rw [h, hvis] at hu
          cases hu
        have hvacc : acc0.1.visited.getD u false = true := by
          simpa [hacc0, List.getD_eq_getElem?_getD,
            List.getElem?_set_ne (Ne.symm hune)] using hu
        obtain ⟨e1, e2⟩ := m3 u hvacc
        constructor
        · rw [hgetne u hune, e1]
        · exact e2
      · simp [hs4]
      · simpa using hs5
      · -- Sound
        intro hsound
        have hreach0 : ∀ x ∈ acc0.2, EpsReach nfa state x := by
          intro x hx
          have : x = state := Finset.mem_singleton.mp hx
          exact this ▸ Relation.ReflTransGen.refl
        have hlsteps : ∀ t ∈ links, epsStep nfa state t := fun t ht => ht
        obtain ⟨f1, f2⟩ := fold_sound nfa _ ih state links acc0 hss0 hlen0 hsound
          hreach0 hlsteps
        intro u x hx
        by_cases hu : u = state
        · rw [hu] at hx ⊢
          rw [hgetfin] at hx
          exact f2 x hx
        · rw [hgetne u hu] at hx
          exact f1 u x hx
    · -- the cache write is out of range: the final `set` is a no-op
      have hnoop : res.1.states.set state res.2 = res.1.states := by
        apply List.set_eq_of_length_le
        rw [hs4]
        exact Nat.le_of_not_lt hrange
      rw [hnoop]
      refine ⟨m1, m2, ?_, m4, by simpa using m5, m6⟩
      intro u hu
      have hune : u ≠ state := by
        intro h
        rw [h, hvis] at hu
        cases hu
      have hvacc : acc0.1.visited.getD u false = true := by
        simpa [hacc0, List.getD_eq_getElem?_getD,
          List.getElem?_set_ne (Ne.symm hune)] using hu
      exact m3 u hvacc

theorem mem_visitedSet {v : List Bool} {u : Nat} :
    u ∈ visitedSet v ↔ u < v.length ∧ v.getD u false = true := by
  simp [visitedSet]

theorem visitedSet_set {v : List Bool} {u : Nat} (h : u < v.length) :
    visitedSet (v.set u true) = insert u (visitedSet v) := by
  ext w
  simp only [mem_visitedSet, Finset.mem_insert, List.length_set]
  by_cases hw : w = u
  · subst hw
    simp [List.getD_eq_getElem?_getD, List.getElem?_set_self', h]
  · simp [List.getD_eq_getElem?_getD, List.getElem?_set_ne (Ne.symm hw), hw,
      List.getD_eq_getElem?_getD]

theorem card_visitedSet_lt {v : List Bool} {s : Nat} (hlen : s < v.length)
    (hvis : v.getD s false = false) : (visitedSet v).card < v.length := by
  have hsub : visitedSet v ⊆ Finset.range v.length := Finset.filter_subset _ _
  have hs : s ∉ visitedSet v := by
    rw [mem_visitedSet]
    rintro ⟨_, h⟩
    rw [hvis] at h
    cases h
  have hss : visitedSet v ⊂ Finset.range v.length :=
    (Finset.ssubset_iff_of_subset hsub).mpr ⟨s, Finset.mem_range.mpr hlen, hs⟩
  calc (visitedSet v).card < (Finset.range v.length).card := Finset.card_lt_card hss
    _ = v.length := Finset.card_range _

theorem visitedSet_mono {v1 v2 : List Bool} (hlen : v2.length = v1.length)
    (h : ∀ u, v1.getD u false = true → v2.getD u false = true) :
    visitedSet v1 ⊆ visitedSet v2 := by
  intro u hu
  rw [mem_visitedSet] at hu ⊢
  exact ⟨by omega, h u hu.2⟩

/-- Completeness of the `fill_body` fold, assuming the completeness contract
of the recursive call at the same fuel: marks are monotone, every newly
marked state lands in the accumulator set, marks of newly marked states are
closed under their epsilon links, and every folded link ends up marked. -/
theorem fold_complete (nfa : Nfa) (fuel : Nat) (hcomp : FillComplete nfa fuel) :
    ∀ (l : List StateId) (acc : EpsSt × Finset Nat),
      (∀ t ∈ l, t < nfa.states.length) →
      SelfSupported nfa acc.1.states →
      acc.1.visited.length = nfa.states.length →
      acc.1.states.length = nfa.states.length →
      nfa.states.length ≤ fuel + (visitedSet acc.1.visited).card →
      (∀ u, acc.1.visited.getD u false = true →
        (l.foldl (fill_body (fill_eps_matrix nfa fuel)) acc).1.visited.getD u false
          = true) ∧
      (∀ w,
        (l.foldl (fill_body (fill_eps_matrix nfa fuel)) acc).1.visited.getD w false
            = true →
        acc.1.visited.getD w false = true ∨
          w ∈ (l.foldl (fill_body (fill_eps_matrix nfa fuel)) acc).2) ∧
      (∀ w,
        (l.foldl (fill_body (fill_eps_matrix nfa fuel)) acc).1.visited.getD w false
            = true →
        acc.1.visited.getD w false = true ∨
          ∀ t ∈ (nfa.states.getD w default).epsilon_links,
            (l.foldl (fill_body (fill_eps_matrix nfa fuel)) acc).1.visited.getD t false
              = true) ∧
      (∀ t ∈ l,
        (l.foldl (fill_body (fill_eps_matrix nfa fuel)) acc).1.visited.getD t false
          = true) := by
  intro l
  induction l with
  | nil =>
    intro acc _ _ _ _ _
    exact ⟨fun _ h => h, fun _ h => Or.inl h, fun _ h => Or.inl h, by simp⟩
  | cons target l ih =>
    intro acc hl hss hvlen hslen hfuel
    rw [List.foldl_cons]
    have htn : target < nfa.states.length := hl target (List.mem_cons_self _ _)
    have hvslen : acc.1.visited.length = acc.1.states.length := by omega
    have hstep : (∀ u, acc.1.visited.getD u false = true →
          (fill_body (fill_eps_matrix nfa fuel) acc target).1.visited.getD u false
            = true) ∧
        (∀ w,
          (fill_body (fill_eps_matrix nfa fuel) acc target).1.visited.getD w false
              = true →
          acc.1.visited.getD w false = true ∨
            w ∈ (fill_body (fill_eps_matrix nfa fuel) acc target).2) ∧
        (∀ w,
          (fill_body (fill_eps_matrix nfa fuel) acc target).1.visited.getD w false
              = true →
          acc.1.visited.getD w false = true ∨
            ∀ t ∈ (nfa.states.getD w default).epsilon_links,
              (fill_body (fill_eps_matrix nfa fuel) acc target).1.visited.getD t false
                = true) ∧
        (fill_body (fill_eps_matrix nfa fuel) acc target).1.visited.getD target false
          = true ∧
        SelfSupported nfa (fill_body (fill_eps_matrix nfa fuel) acc target).1.states ∧
        (fill_body (fill_eps_matrix nfa fuel) acc target).1.visited.length
          = nfa.states.length ∧
        (fill_body (fill_eps_matrix nfa fuel) acc target).1.states.length
          = nfa.states.length := by
      by_cases hv : acc.1.visited.getD target false = true
      · simp only [fill_body, hv, if_true]
        exact ⟨fun _ h => h, fun _ h => Or.inl h, fun _ h => Or.inl h, by trivial, hss,
          hvlen, hslen⟩
      · have hv' : acc.1.visited.getD target false = false := by simpa using hv
        simp only [fill_body, hv', Bool.false_eq_true, if_false]
        obtain ⟨q1, q2, q3⟩ := hcomp acc.1 target hss hvlen hslen htn hv' hfuel
        obtain ⟨_, m2, m3, m4, m5, _⟩ := fill_spec nfa fuel acc.1 target hv' hss hvslen
        refine ⟨fun u h => (m3 u h).2, ?_, q3, q1, m2, by omega, by omega⟩
        intro w hw
        rcases q2 w hw with h | h
        · exact Or.inl h
        · exact Or.inr (Finset.mem_union_right _ h)
    obtain ⟨s_mono, s_new_in, s_closure, s_target, s_ss, s_vlen, s_slen⟩ := hstep
    have hbudget : nfa.states.length ≤
        fuel + (visitedSet (fill_body (fill_eps_matrix nfa fuel) acc target).1.visited).card := by
      have hsub : visitedSet acc.1.visited ⊆
          visitedSet (fill_body (fill_eps_matrix nfa fuel) acc target).1.visited :=
        visitedSet_mono (by omega) s_mono
      have := Finset.card_le_card hsub
      omega
    obtain ⟨i1, i2, i3, i4⟩ := ih (fill_body (fill_eps_matrix nfa fuel) acc target)
      (fun t ht => hl t (List.mem_cons_of_mem _ ht)) s_ss s_vlen s_slen hbudget
    have ha1 := (fold_acc nfa _ (fill_spec nfa fuel) l
      (fill_body (fill_eps_matrix nfa fuel) acc target) s_ss (by omega)).1
    refine ⟨fun u h => i1 u (s_mono u h), ?_, ?_, ?_⟩
    · intro w hw
      rcases i2 w hw with h | h
      · rcases s_new_in w h with h' | h'
        · exact Or.inl h'
        · exact Or.inr (ha1 h')
      · exact Or.inr h
    · intro w hw
      rcases i3 w hw with h | h
      · rcases s_closure w h with h' | h'
        · exact Or.inl h'
        · exact Or.inr (fun t ht => i1 t (h' t ht))
      · exact Or.inr h
    · intro t ht
      rcases List.mem_cons.mp ht with h | h
      · exact h ▸ i1 target s_target
      · exact i4 t h

/-- The worker `fill_eps_matrix` satisfies the completeness contract at every fuel,
for a well-formed NFA. -/
theorem fill_complete (nfa : Nfa) (hwf : nfa.wf) : ∀ fuel, FillComplete nfa fuel := by
  intro fuel
  induction fuel with
  | zero =>
    intro sv state _ hvlen _ hstate hvis hfuel
    exfalso
    have := card_visitedSet_lt (v := sv.visited) (s := state) (by omega) hvis
    omega
  | succ fuel ihc =>
    intro sv state hss hvlen hslen hstate hvis hfuel
    set acc0 : EpsSt × Finset Nat := (⟨sv.states, sv.visited.set state true⟩, {state})
      with hacc0
    set links := (nfa.states.getD state default).epsilon_links with hlinksdef
    set res := links.foldl (fill_body (fill_eps_matrix nfa fuel)) acc0 with hres
    have hunf : fill_eps_matrix nfa (fuel+1) sv state =
        ⟨res.1.states.set state res.2, res.1.visited⟩ := rfl
    rw [hunf]
    have hvslen2 : state < sv.visited.length := by omega
    have hins : visitedSet acc0.1.visited = insert state (visitedSet sv.visited) :=
      visitedSet_set hvslen2
    have hnotmem : state ∉ visitedSet sv.visited := by
      rw [mem_visitedSet]
      rintro ⟨_, h⟩
      rw [hvis] at h
      cases h
    have hcard : (visitedSet acc0.1.visited).card = (visitedSet sv.visited).card + 1 := by
      rw [hins, Finset.card_insert_of_not_mem hnotmem]
    have hl : ∀ t ∈ links, t < nfa.states.length := by
      intro t ht
      have hmem : nfa.states.getD state default ∈ nfa.states := by
        rw [List.getD_eq_getElem?_getD, List.getElem?_eq_getElem (by omega)]
        exact List.getElem_mem _
      exact hwf.1 _ hmem t ht
    have hss0 : SelfSupported nfa acc0.1.states := hss
    have hvlen0 : acc0.1.visited.length = nfa.states.length := by
      simp [hacc0, hvlen]
    have hslen0 : acc0.1.states.length = nfa.states.length := hslen
    have hvs0 : acc0.1.visited.length = acc0.1.states.length := by
      rw [hvlen0, hslen0]
    have hbudget0 : nfa.states.length ≤ fuel + (visitedSet acc0.1.visited).card := by
      omega
    obtain ⟨p1, p2, p3, p4⟩ := fold_complete nfa fuel ihc links acc0 hl hss0 hvlen0
      hslen0 hbudget0
    rw [← hres] at p1 p2 p3 p4
    obtain ⟨m1, m2, m3, m4, m5, m6⟩ := fold_main nfa _ (fill_spec nfa fuel) links acc0
      hss0 hvs0
    obtain ⟨a1, a2, a3⟩ := fold_acc nfa _ (fill_spec nfa fuel) links acc0 hss0 hvs0
    rw [← hres] at m1 m2 m3 m4 m5 a1 a2 a3
    have hmarked0 : acc0.1.visited.getD state false = true := by
      simp [hacc0, List.getD_eq_getElem?_getD, List.getElem?_set_self', hvslen2]
    have hmarked : res.1.visited.getD state false = true := p1 state hmarked0
    have hreslen : res.1.states.length = nfa.states.length := by
      rw [m4]
      exact hslen0
    have hrange' : state < res.1.states.length := by
      rw [hreslen]
      exact hstate
    have hgetfin : (res.1.states.set state res.2).getD state ∅ = res.2 := by
      simp [List.getD_eq_getElem?_getD, List.getElem?_set_self', hrange']
    refine ⟨hmarked, ?_, ?_⟩
    · intro w hw
      rcases p2 w hw with h | h
      · by_cases hws : w = state
        · refine Or.inr ?_
          rw [hws, hgetfin]
          exact a1 (Finset.mem_singleton_self state)
        · refine Or.inl ?_
          simpa [hacc0, List.getD_eq_getElem?_getD,
            List.getElem?_set_ne (Ne.symm hws)] using h
      · refine Or.inr ?_
        rw [hgetfin]
        exact h
    · intro w hw
      rcases p3 w hw with h | h
      · by_cases hws : w = state
        · refine Or.inr ?_
          rw [hws]
          exact p4
        · refine Or.inl ?_
          simpa [hacc0, List.getD_eq_getElem?_getD,
            List.getElem?_set_ne (Ne.symm hws)] using h
      · exact Or.inr h

/-- Epsilon reachability stays inside the state array of a well-formed NFA. -/
theorem epsReach_lt (nfa : Nfa) (hwf : nfa.wf) {s x : Nat} (h : EpsReach nfa s x)
    (hs : s < nfa.states.length) : x < nfa.states.length := by
  induction h with
  | refl => exact hs
  | @tail b c hab hbc ih =>
    have hmem : nfa.states.getD b default ∈ nfa.states := by
      rw [List.getD_eq_getElem?_getD, List.getElem?_eq_getElem ih]
      exact List.getElem_mem _
    exact hwf.1 _ hmem _ hbc

theorem eps_matrix_eq_upto (nfa : Nfa) :
    eps_matrix nfa = eps_upto nfa nfa.states.length := rfl

/-- Invariants of the outer `eps_matrix` loop: after the first `k` roots the
cache is self-supported, sound, of full length, and exact on roots below
`k`. -/
theorem eps_upto_correct (nfa : Nfa) (hwf : nfa.wf) :
    ∀ k, k ≤ nfa.states.length →
      SelfSupported nfa (eps_upto nfa k) ∧
      Sound nfa (eps_upto nfa k) ∧
      (eps_upto nfa k).length = nfa.states.length ∧
      (∀ j, j < k → ∀ x, x ∈ (eps_upto nfa k).getD j ∅ ↔ EpsReach nfa j x) := by
  intro k
  induction k with
  | zero =>
    intro _
    have hempty : ∀ u, (List.replicate nfa.states.length (∅ : Finset Nat)).getD u ∅
        = ∅ := by
      intro u
      rcases Nat.lt_or_ge u nfa.states.length with h | h
      · simp [List.getD_eq_getElem?_getD, List.getElem?_replicate, h]
      · rw [List.getD_eq_default]
        simpa using h
    refine ⟨?_, ?_, by simp [eps_upto], by omega⟩
    · intro u x hx
      rw [show eps_upto nfa 0 = List.replicate nfa.states.length ∅ from rfl,
        hempty u] at hx
      cases hx
    · intro u x hx
      rw [show eps_upto nfa 0 = List.replicate nfa.states.length ∅ from rfl,
        hempty u] at hx
      cases hx
  | succ k ih =>
    intro hk
    have hkn : k < nfa.states.length := hk
    obtain ⟨hss, hsound, hlen, hexact⟩ := ih (by omega)
    have hstep : eps_upto nfa (k+1) =
        (fill_eps_matrix nfa nfa.states.length
          ⟨eps_upto nfa k, List.replicate nfa.states.length false⟩ k).states := by
      unfold eps_upto
      rw [List.range_succ, List.foldl_append, List.foldl_cons, List.foldl_nil]
    set sv : EpsSt := ⟨eps_upto nfa k, List.replicate nfa.states.length false⟩
      with hsv
    have hvisk : ∀ u, sv.visited.getD u false = false := by
      intro u
      rcases Nat.lt_or_ge u nfa.states.length with h | h
      · simp [hsv, List.getD_eq_getElem?_getD, List.getElem?_replicate, h]
      · rw [List.getD_eq_default]
        simpa [hsv] using h
    have hvsl : sv.visited.length = sv.states.length := by
      simp [hsv, hlen]
    obtain ⟨g1, g2, g3, g4, g5, g6⟩ :=
      fill_spec nfa nfa.states.length sv k (hvisk k) hss hvsl
    have hvlen : sv.visited.length = nfa.states.length := by simp [hsv]
    have hslen : sv.states.length = nfa.states.length := by simp [hsv, hlen]
    have hfuel : nfa.states.length ≤ nfa.states.length + (visitedSet sv.visited).card :=
      Nat.le_add_right _ _
    obtain ⟨c1, c2, c3⟩ := fill_complete nfa hwf nfa.states.length sv k hss hvlen
      hslen hkn (hvisk k) hfuel
    -- every state epsilon-reachable from the root gets marked
    have hreach_marked : ∀ x, EpsReach nfa k x →
        (fill_eps_matrix nfa nfa.states.length sv k).visited.getD x false = true := by
      intro x hx
      induction hx with
      | refl => exact c1
      | tail hab hbc ihx =>
        rcases c3 _ ihx with h | h
        · rw [hvisk] at h
          cases h
        · exact h _ hbc
    have hsound' : Sound nfa (fill_eps_matrix nfa nfa.states.length sv k).states :=
      g6 hsound
    rw [hstep]
    refine ⟨g2, hsound', by rw [g4]; exact hslen, ?_⟩
    intro j hj x
    rcases Nat.lt_or_ge j k with hjk | hjk
    · -- an earlier root: the entry may only have grown, and stays sound
      constructor
      · intro hx
        exact hsound' j x hx
      · intro hx
        exact g1 j ((hexact j hjk x).mpr hx)
    · have hjeq : j = k := by omega
      subst hjeq
      constructor
      · intro hx
        exact hsound' j x hx
      · intro hx
        rcases c2 x (hreach_marked x hx) with h | h
        · rw [hvisk] at h
          cases h
        · exact h

/-- The final epsilon-closure cache of a well-formed NFA is exactly epsilon
reachability on every in-range state. -/
theorem eps_matrix_spec (nfa : Nfa) (hwf : nfa.wf) :
    (eps_matrix nfa).length = nfa.states.length ∧
    (∀ s, s < nfa.states.length →
      ∀ x, x ∈ (eps_matrix nfa).getD s ∅ ↔ EpsReach nfa s x) := by
  obtain ⟨_, _, hlen, hexact⟩ :=
    eps_upto_correct nfa hwf nfa.states.length (le_refl _)
  rw [eps_matrix_eq_upto]
  exact ⟨hlen, fun s hs x => hexact s hs x⟩

end EpsLemmas

section DetLemmas

/-- Distinct (row, column) pairs with in-range columns have distinct
row-major indices. -/
theorem rowmajor_ne {r c r' c' k : Nat} (hc : c < k) (hc' : c' < k)
    (hne : r ≠ r' ∨ c ≠ c') : r * k + c ≠ r' * k + c' := by
  intro he
  have hr : r = r' := by
    rcases Nat.lt_trichotomy r r' with h | h | h
    · exfalso
      have : r * k + c < r' * k + c' := by
        calc r * k + c < (r + 1) * k := by nlinarith
          _ ≤ r' * k := Nat.mul_le_mul_right _ h
          _ ≤ r' * k + c' := Nat.le_add_right _ _
      omega
    · exact h
    · exfalso
      have : r' * k + c' < r * k + c := by
        calc r' * k + c' < (r' + 1) * k := by nlinarith
          _ ≤ r * k := Nat.mul_le_mul_right _ h
          _ ≤ r * k + c := Nat.le_add_right _ _
      omega
  subst hr
  rcases hne with h | h
  · exact h rfl
  · omega

theorem Matrix.get_set_eq {m : Matrix} {r c : Nat} (v : Nat)
    (h : r * m.columns + c < m.data.length) : (m.set r c v).get r c = v := by
  simp [Matrix.set, Matrix.get, List.getD_eq_getElem?_getD,
    List.getElem?_set_self', h]

theorem Matrix.get_set_ne {m : Matrix} {r c r' c' : Nat} (v : Nat)
    (hc : c < m.columns) (hc' : c' < m.columns) (hne : r ≠ r' ∨ c ≠ c') :
    (m.set r c v).get r' c' = m.get r' c' := by
  simp [Matrix.set, Matrix.get, List.getD_eq_getElem?_getD,
    List.getElem?_set_ne (rowmajor_ne hc hc' hne)]

theorem Matrix.new_row_get_old {m : Matrix} {r c : Nat} (hr : r < m.rows)
    (hc : c < m.columns) (hlen : m.data.length = m.rows * m.columns) :
    m.new_row.get r c = m.get r c := by
  have hidx : r * m.columns + c < m.data.length := by
    rw [hlen]
    calc r * m.columns + c < (r + 1) * m.columns := by nlinarith
      _ ≤ m.rows * m.columns := Nat.mul_le_mul_right _ hr
  simp [Matrix.new_row, Matrix.get, List.getD_eq_getElem?_getD,
    List.getElem?_append_left hidx]

theorem Matrix.new_row_get_new {m : Matrix} {c : Nat} (hc : c < m.columns)
    (hlen : m.data.length = m.rows * m.columns) :
    m.new_row.get m.rows c = INVALID_IX := by
  have hidx : m.rows * m.columns + c - m.data.length = c := by rw [hlen]; omega
  have hge : m.data.length ≤ m.rows * m.columns + c := by rw [hlen]; omega
  simp [Matrix.new_row, Matrix.get, List.getD_eq_getElem?_getD,
    List.getElem?_append_right hge, hidx, List.getElem?_replicate, hc]

theorem foldl_union_mem (g : Nat → Finset Nat) :
    ∀ (l : List Nat) (acc : Finset Nat) (x : Nat),
      x ∈ l.foldl (fun acc e => acc ∪ g e) acc ↔ x ∈ acc ∨ ∃ e ∈ l, x ∈ g e := by
  intro l
  induction l with
  | nil => intro acc x; simp
  | cons e l ih =>
    intro acc x
    rw [List.foldl_cons, ih]
    simp only [Finset.mem_union, List.mem_cons]
    constructor
    · rintro (⟨h | h⟩ | ⟨e', he', h⟩)
      · exact Or.inl h
      · exact Or.inr ⟨e, Or.inl rfl, h⟩
      · exact Or.inr ⟨e', Or.inr he', h⟩
    · rintro (h | ⟨e', he' | he', h⟩)
      · exact Or.inl (Or.inl h)
      · exact Or.inl (Or.inr (he' ▸ h))
      · exact Or.inr ⟨e', he', h⟩

/-- The union of the inner determinization loop equals its order-independent
form, for any iteration order enumerating the source set. -/
theorem eps_set_union_spec (nfa_mat : Matrix) (eps_mat : List (Finset Nat))
    (listing : Finset Nat → List Nat)
    (hperm : ∀ S : Finset Nat, (listing S).Perm S.toList)
    (src : Finset Nat) (c : Nat) :
    eps_set_union nfa_mat eps_mat listing src c =
      transition_set nfa_mat eps_mat src c := by
  have hbody : eps_set_union nfa_mat eps_mat listing src c =
      (listing src).foldl (fun acc eps_ix => acc ∪
        (if nfa_mat.get eps_ix c ≠ INVALID_IX then
          eps_mat.getD (nfa_mat.get eps_ix c) ∅ else ∅)) ∅ := by
    unfold eps_set_union
    apply List.foldl_ext
    intro acc eps_ix _
    by_cases h : nfa_mat.get eps_ix c ≠ INVALID_IX
    · simp [h]
    · simp [h]
  ext x
  rw [hbody, foldl_union_mem]
  simp only [Finset.not_mem_empty, false_or, transition_set, Finset.mem_biUnion]
  constructor
  · rintro ⟨e, he, h⟩
    exact ⟨e, Finset.mem_toList.mp ((hperm src).mem_iff.mp he), h⟩
  · rintro ⟨e, he, h⟩
    exact ⟨e, (hperm src).mem_iff.mpr (Finset.mem_toList.mpr he), h⟩

theorem insertSorted_perm (x : Nat) : ∀ l : List Nat, (insertSorted x l).Perm (x :: l) := by
  intro l
  induction l with
  | nil => simp [insertSorted]
  | cons y ys ih =>
    rw [insertSorted]
    by_cases h : x ≤ y
    · rw [if_pos h]
    · rw [if_neg h]
      exact (List.Perm.cons y ih).trans (List.Perm.swap x y ys)

theorem sortAsc_perm : ∀ l : List Nat, (sortAsc l).Perm l := by
  intro l
  induction l with
  | nil => simp [sortAsc]
  | cons y ys ih =>
    show (insertSorted y (sortAsc ys)).Perm (y :: ys)
    exact (insertSorted_perm y (sortAsc ys)).trans (List.Perm.cons y ih)

theorem canonical_listing_eq (S : Finset Nat) :
    canonical_listing S = sortAsc S.toList := by
  conv_lhs => rw [canonical_listing, ← Multiset.coe_toList S.val]
  rfl

/-- The canonical `BTreeSet` iteration order enumerates the set. -/
theorem canonical_listing_perm : ∀ S : Finset Nat, (canonical_listing S).Perm S.toList :=
  fun S => by
    rw [canonical_listing_eq]
    exact sortAsc_perm S.toList

/-- Membership in the canonical listing is membership in the set. -/
theorem mem_canonical_listing {S : Finset Nat} {x : Nat} :
    x ∈ canonical_listing S ↔ x ∈ S := by
  rw [(canonical_listing_perm S).mem_iff, Finset.mem_toList]

/-- Dictionary lookup against the worklist mirror: a hit names a registered
index holding exactly the looked-up set. -/
theorem assocFind_mirror_some {ixs : List (Finset Nat)} {S : Finset Nat} {j : Nat}
    (h : assocFind (ixs.enum.map (fun p => (p.2, p.1))) S = some j) :
    j < ixs.length ∧ ixs.getD j ∅ = S := by
  unfold assocFind at h
  rcases hfind : (ixs.enum.map (fun p => (p.2, p.1))).find?
      (fun p => decide (p.1 = S)) with _ | p
  · rw [hfind] at h
    cases h
  · rw [hfind] at h
    have hp2 : p.2 = j := by
      cases h
      rfl
    have hpred := List.find?_some hfind
    have hmem := List.mem_of_find?_eq_some hfind
    rcases List.mem_map.mp hmem with ⟨q, hq, hqp⟩
    have hq1 : q.1 < ixs.length ∧ ixs.getD q.1 ∅ = q.2 := by
      rw [List.mem_enum_iff_getElem?] at hq
      constructor
      · exact (List.getElem?_eq_some.mp hq).1
      · simp [List.getD_eq_getElem?_getD, hq]
    have hps : p.1 = S := by simpa using hpred
    have hq2 : q.2 = p.1 := by rw [← hqp]
    have hq3 : q.1 = p.2 := by rw [← hqp]
    refine ⟨by omega, ?_⟩
    rw [← hp2, ← hq3, hq1.2, hq2, hps]

/-- Dictionary lookup against the worklist mirror: a miss means no
registered index holds the looked-up set. -/
theorem assocFind_mirror_none {ixs : List (Finset Nat)} {S : Finset Nat}
    (h : assocFind (ixs.enum.map (fun p => (p.2, p.1))) S = none) :
    ∀ j, j < ixs.length → ixs.getD j ∅ ≠ S := by
  unfold assocFind at h
  rcases hfind : (ixs.enum.map (fun p => (p.2, p.1))).find?
      (fun p => decide (p.1 = S)) with _ | p
  · intro j hj hcon
    have hmem : (j, ixs.getD j ∅) ∈ ixs.enum := by
      rw [List.getD_eq_getElem?_getD, List.getElem?_eq_getElem hj]
      simp [List.mem_enum_iff_getElem?, List.getElem?_eq_getElem hj]
    have hmem2 : ((ixs.getD j ∅ : Finset Nat), j) ∈
        ixs.enum.map (fun p => (p.2, p.1)) :=
      List.mem_map.mpr ⟨(j, ixs.getD j ∅), hmem, rfl⟩
    have hne := List.find?_eq_none.mp hfind _ hmem2
    rw [List.getD_eq_getElem?_getD] at hcon
    simp [hcon] at hne
  · rw [hfind] at h
    cases h

/-- Appending a worklist entry appends the mirrored dictionary entry. -/
theorem mirror_append (ixs : List (Finset Nat)) (S : Finset Nat) :
    (ixs ++ [S]).enum.map (fun p => (p.2, p.1)) =
      ixs.enum.map (fun p => (p.2, p.1)) ++ [(S, ixs.length)] := by
  simp [List.enum_append]

/-- Epsilon-closure cache entries of a well-formed NFA stay in range. -/
theorem eps_entries_subset (nfa : Nfa) (hwf : nfa.wf) :
    ∀ j, (eps_matrix nfa).getD j ∅ ⊆ Finset.range nfa.states.length := by
  intro j
  obtain ⟨hlen, hexact⟩ := eps_matrix_spec nfa hwf
  rcases Nat.lt_or_ge j nfa.states.length with h | h
  · intro x hx
    rw [Finset.mem_range]
    exact epsReach_lt nfa hwf ((hexact j h x).mp hx) h
  · rw [List.getD_eq_default]
    · simp
    · omega

/-- Union state-sets stay in range for a well-formed NFA. -/
theorem transition_subset (nfa : Nfa) (hwf : nfa.wf) (src : Finset Nat) (c : Nat) :
    transition_set (nfa_matrix nfa) (eps_matrix nfa) src c ⊆
      Finset.range nfa.states.length := by
  intro x hx
  rw [transition_set, Finset.mem_biUnion] at hx
  rcases hx with ⟨e, _, hx⟩
  split at hx
  · exact eps_entries_subset nfa hwf _ hx
  · cases hx

/-- One `det_body` call, inside a row being processed: it preserves the
mid-row invariant, only extends the worklist, touches no other column of the
current row and no earlier row, and — provided the cell started at the
default — establishes the cell specification for its column. -/
theorem det_body_mid (nfa : Nfa) (hwf : nfa.wf) (st0 : DetSt)
    (hguard : st0.i < st0.ixs.length) (st : DetSt) (c : Nat)
    (hmid : DetMid nfa st0 st) (hc : c < nfa.divisions)
    (hcell0 : st.mat.get st0.i c = INVALID_IX) :
    DetMid nfa st0 (det_body (nfa_matrix nfa) (eps_matrix nfa) canonical_listing st c) ∧
    (∃ tl2, (det_body (nfa_matrix nfa) (eps_matrix nfa) canonical_listing st c).ixs
      = st.ixs ++ tl2) ∧
    (∀ c', c' < nfa.divisions → c' ≠ c →
      (det_body (nfa_matrix nfa) (eps_matrix nfa) canonical_listing st c).mat.get st0.i c'
        = st.mat.get st0.i c') ∧
    CellSpec nfa (st0.ixs.getD st0.i ∅)
      (det_body (nfa_matrix nfa) (eps_matrix nfa) canonical_listing st c) st0.i c := by
  obtain ⟨h1, h2, h3, h4, ⟨tl, htl⟩, h6, h7, h8, h9⟩ := hmid
  have hsrc : st.ixs.getD st.i ∅ = st0.ixs.getD st0.i ∅ := by
    rw [h1, htl]
    simp [List.getD_eq_getElem?_getD, List.getElem?_append_left hguard]
  have hunion : eps_set_union (nfa_matrix nfa) (eps_matrix nfa) canonical_listing
      (st.ixs.getD st.i ∅) c =
      transition_set (nfa_matrix nfa) (eps_matrix nfa) (st0.ixs.getD st0.i ∅) c := by
    rw [hsrc]
    exact eps_set_union_spec _ _ _ canonical_listing_perm _ _
  have hidx : st.i * st.mat.columns + c < st.mat.data.length := by
    rw [h2, h4, h1, Nat.succ_mul]
    omega
  simp only [det_body, hunion]
  by_cases hempty :
      transition_set (nfa_matrix nfa) (eps_matrix nfa) (st0.ixs.getD st0.i ∅) c = ∅
  · rw [if_pos hempty]
    refine ⟨⟨h1, h2, h3, h4, ⟨tl, htl⟩, h6, h7, h8, h9⟩, ⟨[], by simp⟩,
      fun _ _ _ => rfl, fun _ => hcell0, fun hne => absurd hempty hne⟩
  · rw [if_neg hempty]
    split
    · -- dictionary hit: reuse the registered identifier
      rename_i j heq
      rw [h6] at heq
      obtain ⟨hjlt, hjeq⟩ := assocFind_mirror_some heq
      have hget : ({ st with mat := st.mat.set st.i c j } : DetSt).mat.get st0.i c
          = j := by
        show (st.mat.set st.i c j).get st0.i c = j
        rw [← h1]
        exact Matrix.get_set_eq j hidx
      refine ⟨⟨h1, by simpa [Matrix.set] using h2, by simpa [Matrix.set] using h3,
        by simpa [Matrix.set] using h4, ⟨tl, htl⟩, h6, h7, h8, ?_⟩,
        ⟨[], by simp⟩, ?_, fun h => absurd h hempty, ?_⟩
      · intro r c' hr hc'
        show (st.mat.set st.i c j).get r c' = st0.mat.get r c'
        rw [Matrix.get_set_ne j (h2 ▸ hc) (h2 ▸ hc') (Or.inl (by omega)), h9 r c' hr hc']
      · intro c' hc' hne
        show (st.mat.set st.i c j).get st0.i c' = st.mat.get st0.i c'
        exact Matrix.get_set_ne j (h2 ▸ hc) (h2 ▸ hc') (Or.inr (Ne.symm hne))
      · intro _
        exact ⟨j, hjlt, hjeq, hget⟩
    · -- dictionary miss: allocate the next identifier and register the set
      rename_i heq
      rw [h6] at heq
      have hnone := assocFind_mirror_none heq
      have hnotmem : transition_set (nfa_matrix nfa) (eps_matrix nfa)
          (st0.ixs.getD st0.i ∅) c ∉ st.ixs := by
        intro hmem
        obtain ⟨k, hk, hkeq⟩ := List.mem_iff_getElem.mp hmem
        refine hnone k hk ?_
        rw [List.getD_eq_getElem?_getD, List.getElem?_eq_getElem hk, hkeq]
        rfl
      have hget : (st.mat.set st.i c st.ixs.length).get st0.i c = st.ixs.length := by
        rw [← h1]
        exact Matrix.get_set_eq _ hidx
      have hgetd : (st.ixs ++
          [transition_set (nfa_matrix nfa) (eps_matrix nfa) (st0.ixs.getD st0.i ∅) c]).getD
            st.ixs.length ∅ =
          transition_set (nfa_matrix nfa) (eps_matrix nfa) (st0.ixs.getD st0.i ∅) c := by
        simp [List.getD_eq_getElem?_getD, List.getElem?_append_right (le_refl _)]
      refine ⟨⟨h1, by simpa [Matrix.set] using h2, by simpa [Matrix.set] using h3,
        by simpa [Matrix.set] using h4, ⟨tl ++ [_], by rw [htl, List.append_assoc]⟩,
        ?_, ?_, ?_, ?_⟩,
        ⟨[_], rfl⟩, ?_, fun h => absurd h hempty, ?_⟩
      · show st.map ++ [(_, st.ixs.length)] = _
        rw [mirror_append, h6]
      · show (st.ixs ++ [_]).Nodup
        rw [List.nodup_append]
        refine ⟨h7, List.nodup_singleton _, ?_⟩
        intro a ha hb
        rw [List.mem_singleton] at hb
        exact hnotmem (hb ▸ ha)
      · intro S hS
        rcases List.mem_append.mp hS with h | h
        · exact h8 S h
        · rw [List.mem_singleton] at h
          exact h ▸ transition_subset nfa hwf _ _
      · intro r c' hr hc'
        show (st.mat.set st.i c _).get r c' = st0.mat.get r c'
        rw [Matrix.get_set_ne _ (h2 ▸ hc) (h2 ▸ hc') (Or.inl (by omega)), h9 r c' hr hc']
      · intro c' hc' hne
        show (st.mat.set st.i c _).get st0.i c' = st.mat.get st0.i c'
        exact Matrix.get_set_ne _ (h2 ▸ hc) (h2 ▸ hc') (Or.inr (Ne.symm hne))
      · intro _
        refine ⟨st.ixs.length, by simp, hgetd, hget⟩

/-- Folding `det_body` over duplicate-free in-range columns whose cells start
at the default preserves the mid-row invariant, only extends the worklist,
leaves unfolded columns untouched, and gives every folded column its cell
specification. -/
theorem det_fold_mid (nfa : Nfa) (hwf : nfa.wf) (st0 : DetSt)
    (hguard : st0.i < st0.ixs.length) :
    ∀ (l : List Nat), (∀ c ∈ l, c < nfa.divisions) → l.Nodup →
      ∀ st, DetMid nfa st0 st →
        (∀ c ∈ l, st.mat.get st0.i c = INVALID_IX) →
        DetMid nfa st0
          (l.foldl (det_body (nfa_matrix nfa) (eps_matrix nfa) canonical_listing) st) ∧
        (∃ tl2,
          (l.foldl (det_body (nfa_matrix nfa) (eps_matrix nfa) canonical_listing) st).ixs
            = st.ixs ++ tl2) ∧
        (∀ c', c' < nfa.divisions → c' ∉ l →
          (l.foldl (det_body (nfa_matrix nfa) (eps_matrix nfa) canonical_listing)
            st).mat.get st0.i c' = st.mat.get st0.i c') ∧
        (∀ c ∈ l, CellSpec nfa (st0.ixs.getD st0.i ∅)
          (l.foldl (det_body (nfa_matrix nfa) (eps_matrix nfa) canonical_listing) st)
          st0.i c) := by
  intro l
  induction l with
  | nil =>
    intro _ _ st hmid _
    exact ⟨hmid, ⟨[], by simp⟩, fun _ _ _ => rfl, by simp⟩
  | cons c l ih =>
    intro hl hnd st hmid hcells
    rw [List.foldl_cons]
    have hc : c < nfa.divisions := hl c (List.mem_cons_self _ _)
    obtain ⟨b1, ⟨tlb, htlb⟩, b3, b4⟩ := det_body_mid nfa hwf st0 hguard st c hmid hc
      (hcells c (List.mem_cons_self _ _))
    have hcnotin : c ∉ l := (List.nodup_cons.mp hnd).1
    have hcells' : ∀ c' ∈ l,
        (det_body (nfa_matrix nfa) (eps_matrix nfa) canonical_listing st c).mat.get
          st0.i c' = INVALID_IX := by
      intro c' hc'
      rw [b3 c' (hl c' (List.mem_cons_of_mem _ hc'))
        (fun he => hcnotin (he ▸ hc'))]
      exact hcells c' (List.mem_cons_of_mem _ hc')
    obtain ⟨i1, ⟨tli, htli⟩, i3, i4⟩ := ih (fun c' h => hl c' (List.mem_cons_of_mem _ h))
      (List.nodup_cons.mp hnd).2 _ b1 hcells'
    refine ⟨i1, ⟨tlb ++ tli, by rw [htli, htlb, List.append_assoc]⟩, ?_, ?_⟩
    · intro c' hc' hc'm
      rw [i3 c' hc' (fun h => hc'm (List.mem_cons_of_mem _ h)),
        b3 c' hc' (fun h => hc'm (h ▸ List.mem_cons_self _ _))]
    · intro c'' hc''
      rcases List.mem_cons.mp hc'' with h | h
      · subst h
        constructor
        · intro hU
          rw [i3 c'' hc hcnotin]
          exact b4.1 hU
        · intro hU
          obtain ⟨j, hj, hjeq, hjget⟩ := b4.2 hU
          refine ⟨j, ?_, ?_, ?_⟩
          · rw [htli, List.length_append]
            omega
          · rw [htli]
            rw [List.getD_eq_getElem?_getD, List.getElem?_append_left hj,
              ← List.getD_eq_getElem?_getD]
            exact hjeq
          · rw [i3 c'' hc hcnotin]
            exact hjget
      · exact i4 c'' h

/-- One full determinization loop iteration preserves the loop invariant,
advances the counter by one, and only extends the worklist. -/
theorem detStep_inv (nfa : Nfa) (hwf : nfa.wf) (st0 : DetSt) (hinv : DetInv nfa st0)
    (hguard : st0.i < st0.ixs.length) :
    DetInv nfa (detStep nfa (nfa_matrix nfa) (eps_matrix nfa) canonical_listing st0) ∧
    (detStep nfa (nfa_matrix nfa) (eps_matrix nfa) canonical_listing st0).i
      = st0.i + 1 ∧
    (∃ tl, (detStep nfa (nfa_matrix nfa) (eps_matrix nfa) canonical_listing st0).ixs
      = st0.ixs ++ tl) := by
  obtain ⟨v1, v2, v3, v4, v5, v6, v7, v8⟩ := hinv
  have hmid0 : DetMid nfa st0 ({ st0 with mat := st0.mat.new_row } : DetSt) := by
    refine ⟨rfl, by simp [Matrix.new_row, v1], by simp [Matrix.new_row, v2], ?_,
      ⟨[], by simp⟩, v5, v6, v7, ?_⟩
    · show (st0.mat.data ++ List.replicate st0.mat.columns INVALID_IX).length
        = (st0.i + 1) * nfa.divisions
      rw [List.length_append, List.length_replicate, v1, v3, Nat.succ_mul]
    · intro r c hr hc
      show st0.mat.new_row.get r c = st0.mat.get r c
      exact Matrix.new_row_get_old (by omega) (v1 ▸ hc) (by rw [v3, v2, v1])
  have hcells0 : ∀ c ∈ List.range nfa.divisions,
      ({ st0 with mat := st0.mat.new_row } : DetSt).mat.get st0.i c = INVALID_IX := by
    intro c hcm
    rw [List.mem_range] at hcm
    show st0.mat.new_row.get st0.i c = INVALID_IX
    have h := Matrix.new_row_get_new (m := st0.mat) (c := c) (v1 ▸ hcm)
      (by rw [v3, v2, v1])
    rwa [v2] at h
  obtain ⟨f1, _, f3, f4⟩ := det_fold_mid nfa hwf st0 hguard (List.range nfa.divisions)
    (fun c h => List.mem_range.mp h) (List.nodup_range _) _ hmid0 hcells0
  obtain ⟨g1, g2, g3, g4, ⟨tlg, htlg⟩, g6, g7, g8, g9⟩ := f1
  set stf := (List.range nfa.divisions).foldl
    (det_body (nfa_matrix nfa) (eps_matrix nfa) canonical_listing)
    ({ st0 with mat := st0.mat.new_row } : DetSt) with hstf
  have hds : detStep nfa (nfa_matrix nfa) (eps_matrix nfa) canonical_listing st0
      = ⟨stf.mat, stf.ixs, stf.map, stf.i + 1⟩ := rfl
  rw [hds]
  have hixs_stable : ∀ j, j < st0.ixs.length →
      stf.ixs.getD j ∅ = st0.ixs.getD j ∅ := by
    intro j hj
    rw [htlg]
    simp [List.getD_eq_getElem?_getD, List.getElem?_append_left hj]
  refine ⟨⟨g2, ?_, ?_, ?_, g6, g7, g8, ?_⟩, ?_, ⟨tlg, htlg⟩⟩
  · show stf.mat.rows = stf.i + 1
    rw [g3, g1]
  · show stf.mat.data.length = (stf.i + 1) * nfa.divisions
    rw [g4, g1]
  · show stf.i + 1 ≤ stf.ixs.length
    rw [g1, htlg, List.length_append]
    omega
  · intro r c hr hc
    have hr2 : r < stf.i + 1 := hr
    rw [g1] at hr2
    show CellSpec nfa (stf.ixs.getD r ∅) _ r c
    rcases Nat.lt_or_ge r st0.i with hr' | hr'
    · obtain ⟨cs1, cs2⟩ := v8 r c hr' hc
      have hsrc_eq := hixs_stable r (by omega)
      constructor
      · intro hU
        show stf.mat.get r c = INVALID_IX
        rw [g9 r c hr' hc]
        exact cs1 (by rwa [hsrc_eq] at hU)
      · intro hU
        obtain ⟨j, hj, hjeq, hjget⟩ := cs2 (by rwa [hsrc_eq] at hU)
        refine ⟨j, ?_, ?_, ?_⟩
        · show j < stf.ixs.length
          rw [htlg, List.length_append]
          omega
        · show stf.ixs.getD j ∅ = _
          rw [hixs_stable j hj, hjeq, hsrc_eq]
        · show stf.mat.get r c = j
          rw [g9 r c hr' hc]
          exact hjget
    · have hreq : r = st0.i := by omega
      subst hreq
      obtain ⟨cs1, cs2⟩ := f4 c (List.mem_range.mpr hc)
      have hsrc_eq := hixs_stable st0.i (by omega)
      constructor
      · intro hU
        show stf.mat.get st0.i c = INVALID_IX
        exact cs1 (by rwa [hsrc_eq] at hU)
      · intro hU
        obtain ⟨j, hj, hjeq, hjget⟩ := cs2 (by rwa [hsrc_eq] at hU)
        exact ⟨j, hj, by rw [hjeq, hsrc_eq], hjget⟩
  · show stf.i + 1 = st0.i + 1
    rw [g1]

/-- The worklist of an invariant-satisfying loop state has at most `2 ^ n`
entries: they are pairwise distinct subsets of the state range. -/
theorem detInv_length_le (nfa : Nfa) (st : DetSt) (hinv : DetInv nfa st) :
    st.ixs.length ≤ 2 ^ nfa.states.length := by
  obtain ⟨_, _, _, _, _, h6, h7, _⟩ := hinv
  have hcard : st.ixs.length = st.ixs.toFinset.card :=
    (List.toFinset_card_of_nodup h6).symm
  have hsub : st.ixs.toFinset ⊆ (Finset.range nfa.states.length).powerset := by
    intro S hS
    rw [Finset.mem_powerset]
    exact h7 S (List.mem_toFinset.mp hS)
  calc st.ixs.length = st.ixs.toFinset.card := hcard
    _ ≤ (Finset.range nfa.states.length).powerset.card := Finset.card_le_card hsub
    _ = 2 ^ nfa.states.length := by rw [Finset.card_powerset, Finset.card_range]

/-- The determinization loop, run with fuel covering the remaining worklist
budget, exhausts the worklist while preserving the invariant and only
extending the worklist. -/
theorem detLoop_total (nfa : Nfa) (hwf : nfa.wf) :
    ∀ fuel st, DetInv nfa st → 2 ^ nfa.states.length ≤ fuel + st.i →
      DetInv nfa (detLoop nfa (nfa_matrix nfa) (eps_matrix nfa) canonical_listing
        fuel st) ∧
      (detLoop nfa (nfa_matrix nfa) (eps_matrix nfa) canonical_listing fuel st).i
        = (detLoop nfa (nfa_matrix nfa) (eps_matrix nfa) canonical_listing fuel st).ixs.length ∧
      (∃ tl, (detLoop nfa (nfa_matrix nfa) (eps_matrix nfa) canonical_listing
        fuel st).ixs = st.ixs ++ tl) := by
  intro fuel
  induction fuel with
  | zero =>
    intro st hinv hfuel
    have hlen := detInv_length_le nfa st hinv
    have hle := hinv.2.2.2.1
    have hieq : st.i = st.ixs.length := by omega
    simp only [detLoop]
    exact ⟨hinv, hieq, ⟨[], by simp⟩⟩
  | succ fuel ih =>
    intro st hinv hfuel
    simp only [detLoop]
    by_cases hguard : st.i < st.ixs.length
    · obtain ⟨hinv', hi', ⟨tl1, htl1⟩⟩ := detStep_inv nfa hwf st hinv hguard
      obtain ⟨r1, r2, ⟨tl2, htl2⟩⟩ := ih
        (detStep nfa (nfa_matrix nfa) (eps_matrix nfa) canonical_listing st) hinv'
        (by rw [hi']; omega)
      rw [if_pos hguard]
      exact ⟨r1, r2, ⟨tl1 ++ tl2, by rw [htl2, htl1, List.append_assoc]⟩⟩
    · rw [if_neg hguard]
      have hle := hinv.2.2.2.1
      exact ⟨hinv, by omega, ⟨[], by simp⟩⟩

/-- The determinization seed satisfies the loop invariant. -/
theorem detInit_inv (nfa : Nfa) (hwf : nfa.wf) :
    DetInv nfa (detInit nfa (eps_matrix nfa)) := by
  refine ⟨rfl, rfl, by simp [detInit, Matrix.new], by simp [detInit], rfl,
    List.nodup_singleton _, ?_, ?_⟩
  · intro S hS
    rw [show (detInit nfa (eps_matrix nfa)).ixs = [(eps_matrix nfa).getD 0 ∅] from rfl,
      List.mem_singleton] at hS
    exact hS ▸ eps_entries_subset nfa hwf 0
  · intro r c hr _
    cases hr

/-- The final determinization state satisfies the invariant, has its
worklist exhausted, and keeps the seed (the closure cache entry of NFA state
index 0) as worklist entry 0. -/
theorem detFinal_inv (nfa : Nfa) (hwf : nfa.wf) :
    DetInv nfa (detFinal nfa) ∧
    (detFinal nfa).i = (detFinal nfa).ixs.length ∧
    (∃ tl, (detFinal nfa).ixs = (eps_matrix nfa).getD 0 ∅ :: tl) := by
  obtain ⟨h1, h2, ⟨tl, htl⟩⟩ := detLoop_total nfa hwf (2 ^ nfa.states.length)
    (detInit nfa (eps_matrix nfa)) (detInit_inv nfa hwf) (Nat.le_add_right _ _)
  refine ⟨h1, h2, ⟨tl, ?_⟩⟩
  rw [show (detInit nfa (eps_matrix nfa)).ixs = [(eps_matrix nfa).getD 0 ∅] from rfl]
    at htl
  simpa using htl

/-- The record `Dfa::from` builds, read off the final determinization state. -/
theorem dfaFrom_eq (nfa : Nfa) :
    dfaFrom nfa =
      { alphabet := nfa.seal
        links := (detFinal nfa).mat
        sources := (detFinal nfa).ixs.map (fun epss => canonical_listing epss)
        exported_sources := (detFinal nfa).ixs.map (fun epss =>
          (canonical_listing epss).filter
            (fun s => (nfa.states.getD s default).exportFlag)) } := rfl

end DetLemmas

section Claims

/-- C5: for every NFA and every DFA state `i` of `Dfa::from`,
`exported_sources[i]` holds exactly the members of `sources[i]` whose NFA
state has the export flag set; in particular it is a subset of `sources[i]`. -/
theorem c5_exported_sources_filter (nfa : Nfa) (i : Nat) :
    (∀ x, x ∈ (dfaFrom nfa).exported_sources.getD i [] ↔
      x ∈ (dfaFrom nfa).sources.getD i [] ∧
        (nfa.states.getD x default).exportFlag = true) ∧
    (∀ x, x ∈ (dfaFrom nfa).exported_sources.getD i [] →
      x ∈ (dfaFrom nfa).sources.getD i []) := by
  have hmain : ∀ x, x ∈ (dfaFrom nfa).exported_sources.getD i [] ↔
      x ∈ (dfaFrom nfa).sources.getD i [] ∧
        (nfa.states.getD x default).exportFlag = true := by
    intro x
    unfold dfaFrom dfaFromWith
    simp only
    by_cases hi : i < (detLoop nfa (nfa_matrix nfa) (eps_matrix nfa) canonical_listing
        (2 ^ nfa.states.length) (detInit nfa (eps_matrix nfa))).ixs.length
    · rw [List.getD_eq_getElem?_getD, List.getD_eq_getElem?_getD]
      rw [List.getElem?_map, List.getElem?_map]
      rw [List.getElem?_eq_getElem hi]
      simp [List.mem_filter]
    · rw [List.getD_eq_getElem?_getD, List.getD_eq_getElem?_getD]
      rw [List.getElem?_map, List.getElem?_map]
      rw [List.getElem?_eq_none (by simpa using hi)]
      simp
  exact ⟨hmain, fun x hx => ((hmain x).mp hx).1⟩

/-- Witness for C5 on `nfaC2`: its DFA state 1 originates from the exported
NFA state 1, so the subset inclusion applies at a concrete member. -/
theorem c5_exported_sources_filter_witness :
    1 ∈ (dfaFrom nfaC2).sources.getD 1 [] :=
  (c5_exported_sources_filter nfaC2 1).2 1 (by decide)

/-- C6: `Dfa::next_state` is total: an out-of-range (row, column) pair, or an
in-range cell holding the invalid sentinel, both yield the invalid sentinel —
never a valid default state. -/
theorem c6_next_state_total (dfa : Dfa) (s : StateId) (x : Symbol) :
    (dfa.links.rows ≤ s ∨ dfa.links.columns ≤ dfa.alphabet.index_of_symbol x →
      dfa.next_state s x = INVALID_IX) ∧
    (dfa.links.get s (dfa.alphabet.index_of_symbol x) = INVALID_IX →
      dfa.next_state s x = INVALID_IX) := by
  unfold Dfa.next_state Matrix.safe_index
  simp only []
  constructor
  · intro h
    rw [if_neg (by omega)]
    rfl
  · intro h
    split
    · simpa using h
    · rfl

/-- Witness for C6 at a concrete DFA: row 5 is out of range of `dfaX` (3
rows), and the in-range cell (1, 0) holds the invalid sentinel. -/
theorem c6_next_state_total_witness :
    dfaX.next_state 5 0 = INVALID_IX ∧ dfaX.next_state 1 0 = INVALID_IX :=
  ⟨(c6_next_state_total dfaX 5 0).1 (by left; decide),
   (c6_next_state_total dfaX 1 0).2 (by decide)⟩

/-- C9 (the code as written): `Parser::new` initializes `dfa_state` from
`default()`, which is the invalid sentinel, not state 0 as the spec's scanner
contract requires; the `current_input` half of the claim holds (first symbol,
or eof on empty input). -/
theorem c9_parser_new_initial_state :
    (Parser.new [97]).dfa_state = INVALID_IX ∧
    INVALID_IX ≠ Dfa.START_STATE ∧
    (Parser.new [97]).current_input = 97 ∧
    (Parser.new [97]).input_iter = [] ∧
    (Parser.new []).current_input = Symbol.eof := by
  refine ⟨rfl, by decide, rfl, rfl, rfl⟩

/-- C3 (the code as written): the routines emitted by `gen_parser_steps_code`
use sequential `if`s, not `else if`s, so after a transition consumes a
symbol, a later column test can fire again on the freshly loaded symbol.  On
the in-source sample `step_state0` (state 0 of the `test1` DFA) with input
"ac", one generated step consumes two symbols and lands in state 2, while the
contractually required table step consumes one symbol and lands in state 1;
driving `dfaX` on input [0, 1] to quiescence ends in state 2 with both
symbols consumed via the generated routines, but in state 1 with one symbol
consumed via `next_state`. -/
theorem c3_generated_step_diverges :
    step_state0 ⟨[99], 97, 0⟩ = ⟨[], Symbol.eof, 2⟩ ∧
    gen_step dfaT1 0 ⟨[99], 97, 0⟩ = step_state0 ⟨[99], 97, 0⟩ ∧
    table_step dfaT1 ⟨[99], 97, 0⟩ = ⟨[], 99, 1⟩ ∧
    gen_drive dfaX 3 ⟨[1], 0, 0⟩ = ⟨[], Symbol.eof, 2⟩ ∧
    table_drive dfaX 3 ⟨[1], 0, 0⟩ = ⟨[], 1, 1⟩ ∧
    (gen_drive dfaX 3 ⟨[1], 0, 0⟩).dfa_state ≠
      (table_drive dfaX 3 ⟨[1], 0, 0⟩).dfa_state ∧
    (gen_drive dfaX 3 ⟨[1], 0, 0⟩).current_input ≠
      (table_drive dfaX 3 ⟨[1], 0, 0⟩).current_input := by
  refine ⟨by decide, by decide, by decide, by decide, by decide, by decide, by decide⟩

/-- C4: for a well-formed NFA — self-referential and mutually cyclic epsilon
links included — the computed epsilon closure of every state `s` is exactly
the set of states transitively epsilon-reachable from `s`, which contains `s`
itself. -/
theorem c4_eps_closure_exact (nfa : Nfa) (hwf : nfa.wf) (s : Nat)
    (hs : s < nfa.states.length) :
    (∀ x, x ∈ (eps_matrix nfa).getD s ∅ ↔ EpsReach nfa s x) ∧
    s ∈ (eps_matrix nfa).getD s ∅ := by
  have h := (eps_matrix_spec nfa hwf).2 s hs
  exact ⟨h, (h s).mpr Relation.ReflTransGen.refl⟩

/-- Witness for C4 on the mutually epsilon-cyclic `nfaC4`. -/
theorem c4_eps_closure_exact_witness :
    nfaC4.wf ∧ 0 < nfaC4.states.length ∧
    0 ∈ (eps_matrix nfaC4).getD 0 ∅ ∧
    (1 ∈ (eps_matrix nfaC4).getD 0 ∅ ↔ EpsReach nfaC4 0 1) :=
  ⟨by decide, by decide,
   (c4_eps_closure_exact nfaC4 (by decide) 0 (by decide)).2,
   (c4_eps_closure_exact nfaC4 (by decide) 0 (by decide)).1 1⟩

/-- C1 counterexample: `Dfa::from` seeds DFA state 0 from `eps_mat[0]`, the
closure of NFA state *index 0*, not of the start state identifier; on
`nfaC1`, whose start state has index 1, DFA state 0's source set is not the
start state's closure. -/
theorem c1_counterexample :
    ¬ (∀ x, x ∈ (dfaFrom nfaC1).sources.getD 0 [] ↔
        EpsReach nfaC1 nfaC1.start x) := by
  intro h
  have h1 := (h 1).mpr Relation.ReflTransGen.refl
  revert h1
  decide

/-- C1 (amended): DFA state 0 is associated — in `sources` and in the
determinization dictionary — with the epsilon closure of NFA state index 0;
whenever the start state is at index 0 (as for NFAs built by
`Nfa::default`), this is the start state's closure. -/
theorem c1_amended (nfa : Nfa) (hwf : nfa.wf) (hne : nfa.states ≠ []) :
    (∀ x, x ∈ (dfaFrom nfa).sources.getD 0 [] ↔ EpsReach nfa 0 x) ∧
    assocFind (detFinal nfa).map ((eps_matrix nfa).getD 0 ∅) = some 0 ∧
    (nfa.start = 0 →
      ∀ x, x ∈ (dfaFrom nfa).sources.getD 0 [] ↔ EpsReach nfa nfa.start x) := by
  obtain ⟨hinv, hieq, ⟨tl, htl⟩⟩ := detFinal_inv nfa hwf
  have hn : 0 < nfa.states.length := List.length_pos.mpr hne
  have hgd0 : (detFinal nfa).ixs.getD 0 ∅ = (eps_matrix nfa).getD 0 ∅ := by
    rw [htl]
    rfl
  have hlen0 : 0 < (detFinal nfa).ixs.length := by
    rw [htl]
    simp
  have hmem : ∀ x, x ∈ (dfaFrom nfa).sources.getD 0 [] ↔ EpsReach nfa 0 x := by
    intro x
    rw [dfaFrom_eq]
    show x ∈ ((detFinal nfa).ixs.map (fun epss => canonical_listing epss)).getD 0 [] ↔ _
    rw [htl, List.map_cons]
    show x ∈ canonical_listing ((eps_matrix nfa).getD 0 ∅) ↔ _
    rw [mem_canonical_listing]
    exact (eps_matrix_spec nfa hwf).2 0 hn x
  refine ⟨hmem, ?_, fun hstart x => by rw [hstart]; exact hmem x⟩
  rcases hfind : assocFind (detFinal nfa).map ((eps_matrix nfa).getD 0 ∅) with _ | j
  · exfalso
    have hnone := assocFind_mirror_none (by rwa [hinv.2.2.2.2.1] at hfind)
    exact hnone 0 hlen0 hgd0
  · obtain ⟨hjlt, hjeq⟩ := assocFind_mirror_some (by rwa [hinv.2.2.2.2.1] at hfind)
    have hj0 : j = 0 := by
      have hnodup := hinv.2.2.2.2.2.1
      have e1 : (detFinal nfa).ixs[j] = (eps_matrix nfa).getD 0 ∅ := by
        rw [List.getD_eq_getElem?_getD, List.getElem?_eq_getElem hjlt] at hjeq
        simpa using hjeq
      have e0 : (detFinal nfa).ixs[0] = (eps_matrix nfa).getD 0 ∅ := by
        rw [List.getD_eq_getElem?_getD, List.getElem?_eq_getElem hlen0] at hgd0
        simpa using hgd0
      exact (List.Nodup.getElem_inj_iff hnodup).mp (e1.trans e0.symm)
    rw [hj0]

/-- Witness for C1 (amended) on `nfaC0`, whose start state is at index 0. -/
theorem c1_amended_witness :
    (0 ∈ (dfaFrom nfaC0).sources.getD 0 [] ↔ EpsReach nfaC0 0 0) ∧
    assocFind (detFinal nfaC0).map ((eps_matrix nfaC0).getD 0 ∅) = some 0 ∧
    (0 ∈ (dfaFrom nfaC0).sources.getD 0 [] ↔ EpsReach nfaC0 nfaC0.start 0) :=
  ⟨(c1_amended nfaC0 (by decide) (by decide)).1 0,
   (c1_amended nfaC0 (by decide) (by decide)).2.1,
   (c1_amended nfaC0 (by decide) (by decide)).2.2 (by decide) 0⟩

/-- C2: for every discovered DFA state `i` and alphabet column `c`, the
matrix cell holds the invalid sentinel exactly when the union — over `i`'s
source set — of the epsilon closures of valid direct transition targets on
`c` is empty; otherwise it holds the identifier registered for exactly that
union state-set (worklist entries are pairwise distinct, so the identifier
of a structurally equal set is reused and fresh sets get the next one). -/
theorem c2_matrix_cells (nfa : Nfa) (hwf : nfa.wf) (i c : Nat)
    (hi : i < (detFinal nfa).ixs.length) (hc : c < nfa.divisions) :
    (detFinal nfa).ixs.Nodup ∧
    (transition_set (nfa_matrix nfa) (eps_matrix nfa) ((detFinal nfa).ixs.getD i ∅) c
        = ∅ → (dfaFrom nfa).links.get i c = INVALID_IX) ∧
    (transition_set (nfa_matrix nfa) (eps_matrix nfa) ((detFinal nfa).ixs.getD i ∅) c
        ≠ ∅ → ∃ j, j < (detFinal nfa).ixs.length ∧
      (detFinal nfa).ixs.getD j ∅ =
        transition_set (nfa_matrix nfa) (eps_matrix nfa)
          ((detFinal nfa).ixs.getD i ∅) c ∧
      (dfaFrom nfa).links.get i c = j) := by
  obtain ⟨hinv, hieq, _⟩ := detFinal_inv nfa hwf
  have hcells := hinv.2.2.2.2.2.2.2 i c (by omega) hc
  exact ⟨hinv.2.2.2.2.2.1, hcells.1, hcells.2⟩

/-- Witness for C2 on `nfaC2` (one real transition). -/
theorem c2_matrix_cells_witness :
    (detFinal nfaC2).ixs.Nodup ∧
    (transition_set (nfa_matrix nfaC2) (eps_matrix nfaC2)
        ((detFinal nfaC2).ixs.getD 0 ∅) 0 ≠ ∅ →
      ∃ j, j < (detFinal nfaC2).ixs.length ∧
        (detFinal nfaC2).ixs.getD j ∅ =
          transition_set (nfa_matrix nfaC2) (eps_matrix nfaC2)
            ((detFinal nfaC2).ixs.getD 0 ∅) 0 ∧
        (dfaFrom nfaC2).links.get 0 0 = j) :=
  ⟨(c2_matrix_cells nfaC2 (by decide) 0 0 (by decide) (by decide)).1,
   (c2_matrix_cells nfaC2 (by decide) 0 0 (by decide) (by decide)).2.2⟩

/-- C7: determinization is insensitive to the iteration order over state
sets: any two orders that enumerate each set produce identical DFA values
(in particular bit-identical transition matrices). -/
theorem c7_determinism (nfa : Nfa) (l1 l2 : Finset Nat → List Nat)
    (h1 : ∀ S, (l1 S).Perm S.toList) (h2 : ∀ S, (l2 S).Perm S.toList) :
    dfaFromWith l1 nfa = dfaFromWith l2 nfa := by
  have hbody : ∀ (lst : Finset Nat → List Nat), (∀ S, (lst S).Perm S.toList) →
      ∀ st c, det_body (nfa_matrix nfa) (eps_matrix nfa) lst st c
        = det_body (nfa_matrix nfa) (eps_matrix nfa) canonical_listing st c := by
    intro lst hl st c
    unfold det_body
    rw [eps_set_union_spec _ _ _ hl, eps_set_union_spec _ _ _ canonical_listing_perm]
  have hstep : ∀ (lst : Finset Nat → List Nat), (∀ S, (lst S).Perm S.toList) →
      ∀ st, detStep nfa (nfa_matrix nfa) (eps_matrix nfa) lst st
        = detStep nfa (nfa_matrix nfa) (eps_matrix nfa) canonical_listing st := by
    intro lst hl st
    have hf : (List.range nfa.divisions).foldl
        (det_body (nfa_matrix nfa) (eps_matrix nfa) lst)
        ({ st with mat := st.mat.new_row } : DetSt)
        = (List.range nfa.divisions).foldl
          (det_body (nfa_matrix nfa) (eps_matrix nfa) canonical_listing)
          ({ st with mat := st.mat.new_row } : DetSt) :=
      List.foldl_ext _ _ _ (fun acc x _ => hbody lst hl acc x)
    simp only [detStep]
    rw [hf]
  have hloop : ∀ (lst : Finset Nat → List Nat), (∀ S, (lst S).Perm S.toList) →
      ∀ fuel st, detLoop nfa (nfa_matrix nfa) (eps_matrix nfa) lst fuel st
        = detLoop nfa (nfa_matrix nfa) (eps_matrix nfa) canonical_listing fuel st := by
    intro lst hl fuel
    induction fuel with
    | zero => intro st; rfl
    | succ fuel ih =>
      intro st
      simp only [detLoop]
      by_cases hg : st.i < st.ixs.length
      · rw [if_pos hg, if_pos hg, hstep lst hl st, ih]
      · rw [if_neg hg, if_neg hg]
  have hgen : ∀ (lst : Finset Nat → List Nat), (∀ S, (lst S).Perm S.toList) →
      dfaFromWith lst nfa = dfaFromWith canonical_listing nfa := by
    intro lst hl
    simp only [dfaFromWith]
    rw [hloop lst hl]
  rw [hgen l1 h1, hgen l2 h2]

/-- Witness for C7: the descending iteration order yields the same DFA as
the canonical ascending one, on `nfaC2`. -/
theorem c7_determinism_witness :
    dfaFromWith reverse_listing nfaC2 = dfaFromWith canonical_listing nfaC2 :=
  c7_determinism nfaC2 reverse_listing canonical_listing
    (fun S => (List.reverse_perm _).trans (canonical_listing_perm S))
    canonical_listing_perm

/-- C8: the determinization worklist loop terminates: worklist entries are
pairwise distinct state-sets, so there are at most `2 ^ n` of them, the
`2 ^ n` fuel suffices, and the loop ends with the worklist exhausted. -/
theorem c8_worklist_terminates (nfa : Nfa) (hwf : nfa.wf) :
    (detFinal nfa).i = (detFinal nfa).ixs.length ∧
    (detFinal nfa).ixs.Nodup ∧
    (detFinal nfa).ixs.length ≤ 2 ^ nfa.states.length := by
  obtain ⟨hinv, hieq, _⟩ := detFinal_inv nfa hwf
  exact ⟨hieq, hinv.2.2.2.2.2.1, detInv_length_le nfa _ hinv⟩

/-- Witness for C8 on `nfaC2`. -/
theorem c8_worklist_terminates_witness :
    (detFinal nfaC2).i = (detFinal nfaC2).ixs.length ∧
    (detFinal nfaC2).ixs.Nodup ∧
    (detFinal nfaC2).ixs.length ≤ 2 ^ nfaC2.states.length :=
  c8_worklist_terminates nfaC2 (by decide)

/-- C10: the DFA produced by `Dfa::from` has one `sources` entry and one
`exported_sources` entry per transition-matrix row. -/
theorem c10_length_invariant (nfa : Nfa) (hwf : nfa.wf) :
    (dfaFrom nfa).sources.length = (dfaFrom nfa).links.rows ∧
    (dfaFrom nfa).exported_sources.length = (dfaFrom nfa).links.rows ∧
    (dfaFrom nfa).sources.length = (dfaFrom nfa).exported_sources.length := by
  obtain ⟨hinv, hieq, _⟩ := detFinal_inv nfa hwf
  have hrows : (dfaFrom nfa).links.rows = (detFinal nfa).ixs.length := by
    show (detFinal nfa).mat.rows = _
    rw [hinv.2.1, hieq]
  refine ⟨?_, ?_, ?_⟩
  · show ((detFinal nfa).ixs.map _).length = _
    rw [List.length_map, hrows]
  · show ((detFinal nfa).ixs.map _).length = _
    rw [List.length_map, hrows]
  · show ((detFinal nfa).ixs.map _).length = ((detFinal nfa).ixs.map _).length
    rw [List.length_map, List.length_map]

/-- Witness for C10 on `nfaC2`. -/
theorem c10_length_invariant_witness :
    (dfaFrom nfaC2).sources.length = (dfaFrom nfaC2).links.rows ∧
    (dfaFrom nfaC2).exported_sources.length = (dfaFrom nfaC2).links.rows ∧
    (dfaFrom nfaC2).sources.length = (dfaFrom nfaC2).exported_sources.length :=
  c10_length_invariant nfaC2 (by decide)

end Claims

end Enso
